import Mathlib

/-!
Verification development for the `tsc-check-files` CLI.

The TypeScript sources (`src/utils.ts`, `src/arg-parser.ts`,
`src/config-builder.ts`, `src/types.ts` and the CLI entry point) are shallowly
embedded below.  Filesystem access (`fs.existsSync`, `fs.unlinkSync`,
`fs.writeFileSync`), package resolution (`resolve-from`) and the TypeScript
library (`ts.findConfigFile`, `ts.readConfigFile`) are external effects; they
are modelled as explicit oracle parameters / environment records.  The
`node:path` POSIX routines used by the sources (`resolve`, `relative`,
`extname`, `dirname`, `join`) are embedded as executable functions on
character lists.
-/

namespace TscRunner

/-! ## Embedding of the `node:path` POSIX routines -/

/-- Split a character list at every occurrence of the separator `sep`. -/
def splitChar (sep : Char) : List Char → List (List Char)
  | [] => [[]]
  | c :: rest =>
    match splitChar sep rest with
    | [] => [[c]]
    | s :: ss => if c = sep then [] :: s :: ss else (c :: s) :: ss

/-- Split a character list into its `/`-separated segments
(the splitting step of `path.resolve` normalization). -/
def splitSegs : List Char → List (List Char) :=
  splitChar '/'

/-- Join segments with `/` separators (the joining step of `path.resolve`). -/
def joinSegs : List (List Char) → List Char
  | [] => []
  | [s] => s
  | s :: rest => s ++ '/' :: joinSegs rest

/-- The trailing run of non-`/` characters: the basename portion a path ends
with.  Agrees with how `path.extname` and normalization treat the final
segment of a slash-normalized path (no trailing slash). -/
def lastSegChars (l : List Char) : List Char :=
  (l.reverse.takeWhile (fun c => c ≠ '/')).reverse

/-- `path.extname` on a basename: the substring from the last `.` to the end;
empty when there is no dot, when the dot is the first character of the
basename, or for the special basename `..` (mirroring node's rules). -/
def extnameChars (b : List Char) : List Char :=
  if (b.reverse.takeWhile (fun c => c ≠ '.')).length = b.reverse.length then []
  else if (b.reverse.takeWhile (fun c => c ≠ '.')).length + 1 = b.reverse.length then []
  else if b = ['.', '.'] then []
  else '.' :: (b.reverse.takeWhile (fun c => c ≠ '.')).reverse

/-- `path.extname`, for slash-normalized paths (the sources only apply it to
outputs of `path.resolve`, which carry no trailing slash). -/
def extname (s : String) : String :=
  ⟨extnameChars (lastSegChars s.data)⟩

/-- One step of `path.resolve` normalization: empty and `.` segments vanish,
`..` pops the running stack (staying at the root when empty), and any other
segment is pushed. -/
def normStep (stack : List (List Char)) (seg : List Char) : List (List Char) :=
  if seg = [] then stack
  else if seg = ['.'] then stack
  else if seg = ['.', '.'] then stack.dropLast
  else stack ++ [seg]

/-- The normalized segment stack of `path.resolve(cwd, arg)` for an absolute
`cwd`: an absolute `arg` is used as is, otherwise it is appended to `cwd`. -/
def resolveSegs (cwd arg : List Char) : List (List Char) :=
  let joined := if arg.head? = some '/' then arg else cwd ++ '/' :: arg
  (splitSegs joined).foldl normStep []

/-- `path.resolve(cwd, arg)` (POSIX, `cwd` absolute). -/
def resolvePath (cwd arg : String) : String :=
  ⟨'/' :: joinSegs (resolveSegs cwd.data arg.data)⟩

/-- Segment-level `path.relative`: drop the common prefix, then climb with
`..` segments and descend into the remainder. -/
def relativeSegs : List (List Char) → List (List Char) → List (List Char)
  | f :: fs, t :: ts =>
    if f = t then relativeSegs fs ts
    else List.replicate (fs.length + 1) ['.', '.'] ++ (t :: ts)
  | [], ts => ts
  | fs, [] => List.replicate fs.length ['.', '.']

/-- `path.relative(fro, to)` (POSIX): both arguments are resolved against
`cwd` first, exactly as node does. -/
def relativePath (cwd fro toP : String) : String :=
  ⟨joinSegs (relativeSegs (resolveSegs cwd.data fro.data) (resolveSegs cwd.data toP.data))⟩

/-- `path.dirname` for the absolute paths the sources feed it: drop the last
segment together with its separator. -/
def dirname (s : String) : String :=
  let r := (s.data.reverse.dropWhile (fun c => c ≠ '/')).drop 1
  if r = [] ∧ s.data.head? = some '/' then "/" else ⟨r.reverse⟩

/-- `String.prototype.endsWith` of JavaScript. -/
def strEndsWith (s suf : String) : Bool :=
  suf.data.isSuffixOf s.data

/-! ## `src/types.ts` -/

/-- `type Tool = 'glint' | 'vue-tsc' | 'tsc'` -/
inductive Tool where
  | glint
  | vueTsc
  | tsc
deriving DecidableEq

/-- The command-name string of a tool. -/
def toolName : Tool → String
  | .glint => "glint"
  | .vueTsc => "vue-tsc"
  | .tsc => "tsc"

/-- `FILE_EXTS = ['.ts', '.tsx', '.gts', '.vue']` -/
def FILE_EXTS : List String := [".ts", ".tsx", ".gts", ".vue"]

/-! ## `src/utils.ts`: `isFileArg` -/

/-- `isFileArg` from `src/utils.ts`: the extension of the resolved path must
be in `FILE_EXTS` and the resolved path must exist on disk.  `fsExists`
models `fs.existsSync`, `cwd` the process working directory used by
`path.resolve`. -/
def isFileArg (fsExists : String → Bool) (cwd : String) (arg : String) : Bool :=
  let resolvedPath := resolvePath cwd arg
  let ext := extname resolvedPath
  FILE_EXTS.contains ext && fsExists resolvedPath

example : resolvePath "/proj" "a.ts" = "/proj/a.ts" := by decide
example : resolvePath "/proj" "/abs/b.tsx" = "/abs/b.tsx" := by decide
example : resolvePath "/proj/sub" "../a.ts" = "/proj/a.ts" := by decide
example : extname "/proj/a.ts" = ".ts" := by decide
example : extname "/proj/.ts" = "" := by decide
example : extname "/proj/a." = "." := by decide
example : extname "/" = "" := by decide
example : relativePath "/proj" "/proj" "/proj/a.ts" = "a.ts" := by decide
example : relativePath "/proj" "/proj/x" "/proj/y/b.ts" = "../y/b.ts" := by decide
example : dirname "/proj/tsconfig.json" = "/proj" := by decide
example : dirname "/tsconfig.json" = "/" := by decide
example : isFileArg (fun _ => true) "/proj" "a.ts" = true := by decide
example : isFileArg (fun _ => true) "/proj" "a.js" = false := by decide
example : isFileArg (fun _ => false) "/proj" "a.ts" = false := by decide

/-- `String.prototype.startsWith` of JavaScript. -/
def strStartsWith (s pre : String) : Bool :=
  pre.data.isPrefixOf s.data

/-- `String.prototype.split('=')` of JavaScript. -/
def splitEq (s : String) : List String :=
  (splitChar '=' s.data).map fun l => ⟨l⟩

/-! ## `src/utils.ts`: `pickTool`, `getInstallSuggestion` -/

/-- The fields of the nearest `package.json` used by `pickTool` and
`resolvePackageBin` (`src/types.ts`, interface `PackageJson`).  Dependency
records are association lists of package name to version string. -/
structure PackageJson where
  dependencies : List (String × String)
  devDependencies : List (String × String)

/-- `{ ...pkg.dependencies, ...pkg.devDependencies }`: key lookup in the
merged record, with the later spread (devDependencies) winning. -/
def mergedDep (pkg : PackageJson) (k : String) : Option String :=
  match pkg.devDependencies.find? (fun e => e.1 = k) with
  | some e => some e.2
  | none => (pkg.dependencies.find? (fun e => e.1 = k)).map (fun e => e.2)

/-- The truthiness test `allDeps?.[name]` of `pickTool`: the merged record
must bind `name` to a non-empty (truthy) version string. -/
def hasDep (pkg : PackageJson) (k : String) : Bool :=
  match mergedDep pkg k with
  | some v => v ≠ ""
  | none => false

/-- `pickTool` from `src/utils.ts`.  `pkgRead` models
`JSON.parse(fs.readFileSync(pkgJsonPath))`: `.error` is the caught
read/parse failure (the `catch {}` branch). -/
def pickTool (fileArgs : List String) (pkgRead : Except Unit PackageJson)
    (override : Option Tool) : Tool :=
  match override with
  | some t => t
  | none =>
    if fileArgs.any (fun f => strEndsWith f ".vue") then .vueTsc
    else if fileArgs.any (fun f => strEndsWith f ".gts" || strEndsWith f ".gjs") then .glint
    else
      match pkgRead with
      | .error _ => .tsc
      | .ok pkg =>
        if hasDep pkg "@glint/core" then .glint
        else if hasDep pkg "vue-tsc" || hasDep pkg "vue" then .vueTsc
        else .tsc

/-- `getInstallSuggestion` from `src/utils.ts`. -/
def getInstallSuggestion : Tool → String
  | .tsc => "typescript"
  | .vueTsc => "vue-tsc"
  | .glint => "@glint/core"

/-! ## `src/arg-parser.ts` -/

/-- `interface ParsedArgs` from `src/types.ts`. -/
structure ParsedArgs where
  fileArgs : List String
  passthrough : List String
  explicitProject : Option String
  toolOverride : Option Tool
deriving DecidableEq

/-- `validateToolValue` from `src/arg-parser.ts`: an unknown value is a fatal
usage error, `process.exit(1)`, modelled as `.error 1` (the exit code).  The
input is an `Option` because the call sites can pass `undefined`. -/
def validateToolValue (value : Option String) : Except Nat Tool :=
  if value = some "tsc" then .ok .tsc
  else if value = some "vue-tsc" then .ok .vueTsc
  else if value = some "glint" then .ok .glint
  else .error 1

/-- The `--project` / `-p` scan of `parseArgs`: first hit wins
(`break`), value taken from the next token or after the `=`. -/
def findExplicitProject : List String → Option String
  | [] => none
  | a :: rest =>
    if a = "--project" ∨ a = "-p" then rest.head?
    else if strStartsWith a "--project=" then (splitEq a).get? 1
    else findExplicitProject rest

/-- `parseArgs` from `src/arg-parser.ts`.  The two `--tool` passes mutate
`passthrough` by `splice`; an invalid tool value terminates the process with
exit code 1 (`.error 1`). -/
def parseArgs (fsExists : String → Bool) (cwd : String) (argv : List String) :
    Except Nat ParsedArgs := do
  let fileArgs := argv.filter (isFileArg fsExists cwd)
  let passthrough0 := argv.filter (fun a => !fileArgs.contains a)
  let explicitProject := findExplicitProject passthrough0
  let step1 ←
    match passthrough0.findIdx? (fun a => strStartsWith a "--tool=") with
    | some i =>
      match passthrough0.get? i with
      | some a =>
        (validateToolValue ((splitEq a).get? 1)).map
          (fun t => (some t, passthrough0.eraseIdx i))
      | none => pure (none, passthrough0)
    | none => pure ((none : Option Tool), passthrough0)
  let step2 ←
    match step1.2.findIdx? (fun a => a = "--tool") with
    | some i =>
      (validateToolValue (step1.2.get? (i + 1))).map
        (fun t => (some t, (step1.2.eraseIdx i).eraseIdx i))
    | none => pure (step1.1, step1.2)
  pure ⟨fileArgs, step2.2, explicitProject, step2.1⟩

example :
    parseArgs (fun _ => true) "/p" ["a.ts", "--strict", "--tool", "glint"] =
      .ok ⟨["a.ts"], ["--strict"], none, some .glint⟩ := by
  rfl

example :
    parseArgs (fun _ => true) "/p" ["--tool=bogus", "a.ts"] = .error 1 := by
  rfl

example :
    parseArgs (fun _ => true) "/p" ["-p", "./tsconfig.build.json", "a.js"] =
      .ok ⟨[], ["-p", "./tsconfig.build.json", "a.js"], some "./tsconfig.build.json", none⟩ := by
  rfl

/-! ## JSON / JavaScript object model

A tsconfig is an untyped JSON object.  JavaScript objects are embedded as
association lists in property order; `JValue.undef` is the JavaScript
`undefined`, which `JSON.stringify` drops from objects. -/

inductive JValue where
  | null
  | undef
  | bool (b : Bool)
  | num (n : Int)
  | str (s : String)
  | arr (elts : List JValue)
  | obj (entries : List (String × JValue))

/-- Property read `o[k]` (objects have unique keys, so the first match is
the binding). -/
def getKey : List (String × JValue) → String → Option JValue
  | [], _ => none
  | e :: rest, k => if e.1 = k then some e.2 else getKey rest k

/-- Property write `o[k] = v` (also the effect of a literal
`{ ...o, k: v }`): an existing binding is overwritten in place, a new key is
appended in insertion order. -/
def setKey (es : List (String × JValue)) (k : String) (v : JValue) :
    List (String × JValue) :=
  if es.any (fun e => e.1 = k) then
    es.map (fun e => if e.1 = k then (k, v) else e)
  else es ++ [(k, v)]

/-- `delete o[k]`. -/
def delKey (es : List (String × JValue)) (k : String) : List (String × JValue) :=
  es.filter (fun e => e.1 ≠ k)

/-- Whether a value is the JavaScript `undefined`. -/
def isUndef : JValue → Bool
  | .undef => true
  | _ => false

/-- The entries of an object that survive `JSON.stringify`: keys bound to
`undefined` are dropped. -/
def serializeTop (es : List (String × JValue)) : List (String × JValue) :=
  es.filter (fun e => !isUndef e.2)

/-- The `compilerOptions` value of a config, as spread by `createTempConfig`:
`originalConfig.compilerOptions as Record<string, unknown> ?? {}`.  A missing,
`null` or `undefined` value spreads to the empty object.  (Spreading a
primitive `compilerOptions` — never produced by `ts.readConfigFile` — is
outside the model and also yields the empty object here.) -/
def compilerOptionsOf (originalConfig : List (String × JValue)) :
    List (String × JValue) :=
  match getKey originalConfig "compilerOptions" with
  | some (.obj es) => es
  | _ => []

/-! ## `src/config-builder.ts`: `createTempConfig` -/

/-- `createTempConfig` from `src/config-builder.ts`.  `cwd` models
`process.cwd()`. -/
def createTempConfig (originalConfig : List (String × JValue))
    (files : Option (List String)) (configDir : String) (shimPath : String)
    (cwd : String) : List (String × JValue) :=
  let compilerOptions :=
    setKey (setKey (setKey (setKey (setKey (setKey
      (compilerOptionsOf originalConfig)
      "noEmit" (.bool true))
      "outDir" .undef)
      "rootDir" .undef)
      "composite" (.bool false))
      "incremental" (.bool false))
      "tsBuildInfoFile" .undef
  let tempConfig := setKey originalConfig "compilerOptions" (.obj compilerOptions)
  match files with
  | some fs =>
    if fs.length > 0 then
      let relativeFiles := fs.map (fun file =>
        relativePath cwd configDir (resolvePath cwd file))
      let relativeShim := relativePath cwd configDir shimPath
      delKey (delKey
        (setKey tempConfig "files"
          (.arr ((relativeFiles ++ [relativeShim]).map .str)))
        "include") "exclude"
    else tempConfig
  | none => tempConfig

/-! ## `src/config-builder.ts`: filesystem model and `cleanup` -/

/-- The on-disk state cleanup interacts with: which paths exist, plus an
oracle saying whether `fs.unlinkSync` fails at a path (permission errors and
the like). -/
structure FS where
  files : List String
  unlinkFails : String → Bool

/-- `fs.existsSync`. -/
def fsExistsSync (fs : FS) (p : String) : Bool :=
  fs.files.contains p

/-- `fs.unlinkSync`: removal of the path, or a thrown error when the failure
oracle says so. -/
def fsUnlinkSync (fs : FS) (p : String) : Except Unit FS :=
  if fs.unlinkFails p then .error ()
  else .ok { fs with files := fs.files.filter (fun q => q ≠ p) }

/-- One `try { if (fs.existsSync(p)) fs.unlinkSync(p) } catch {}` block of
`cleanup`: total — a missing file is skipped and a deletion error is
swallowed. -/
def tryDelete (fs : FS) (p : String) : FS :=
  if fsExistsSync fs p then
    match fsUnlinkSync fs p with
    | .ok fs2 => fs2
    | .error _ => fs
  else fs

/-- The `cleanup` closure returned by `buildTempTsconfig`: best-effort
deletion of the derived config and then the shim file. -/
def cleanupTemp (tempPath shimPath : String) (fs : FS) : FS :=
  tryDelete (tryDelete fs tempPath) shimPath

/-! ## `src/config-builder.ts`: `buildTempTsconfig` -/

/-- Fuelled decimal-digit accumulator (the fuel is only there to make the
recursion structural; it never runs out when it starts at least `n + 1`). -/
def toDecimalCore : Nat → Nat → List Char
  | 0, _ => []
  | fuel + 1, n =>
    if n < 10 then [Nat.digitChar n]
    else toDecimalCore fuel (n / 10) ++ [Nat.digitChar (n % 10)]

/-- JavaScript number-to-decimal-string conversion, used by the template
literal embedding the timestamp into the derived config's filename. -/
def toDecimalChars (n : Nat) : List Char :=
  toDecimalCore (n + 1) n

/-- The environment `buildTempTsconfig` runs in: the working directory, the
outcome of the `ts.findConfigFile` chain, the outcome of
`ts.readConfigFile` (`.error` is a read/parse diagnostic; `.ok none` is a
result with no `config` property, defaulted by `?? {}`), the `Date.now()`
timestamp, and whether the `fs.writeFileSync` of the shim file throws. -/
structure TsEnv where
  cwd : String
  foundConfig : Option String
  configRead : Except Unit (Option (List (String × JValue)))
  timestamp : Nat
  shimWriteFails : Bool

/-- How `buildTempTsconfig` aborts: `.noConfig` is the thrown
`Error('No tsconfig.json found …')` (reaching `main().catch`), `.readError`
is the direct `process.exit(1)` after a read/parse diagnostic. -/
inductive BuildErr where
  | noConfig
  | readError
deriving DecidableEq

/-- What `buildTempTsconfig` produces: the `TempTsconfig` record of
`src/types.ts` (temp path, config dir — `cleanup` itself is determined by
`tempPath`/`shimPath`), plus the shim path, whether the shim write
succeeded, and the derived config object written to `tempPath`. -/
structure BuildOut where
  tempPath : String
  configDir : String
  shimPath : String
  shimWritten : Bool
  tempConfig : List (String × JValue)

/-- `buildTempTsconfig` from `src/config-builder.ts`. -/
def buildTempTsconfig (env : TsEnv) (files : Option (List String)) :
    Except BuildErr BuildOut :=
  match env.foundConfig with
  | none => .error .noConfig
  | some configFileName =>
    match env.configRead with
    | .error _ => .error .readError
    | .ok cfg =>
      let configDir := dirname configFileName
      let tempPath : String :=
        ⟨configDir.data ++ "/tsconfig.tsc-runner.".data ++
          toDecimalChars env.timestamp ++ ".json".data⟩
      let shimPath : String := ⟨configDir.data ++ "/tsconfig.tsc-runner.shims.d.ts".data⟩
      let shimWritten := !env.shimWriteFails
      let originalConfig := cfg.getD []
      let tempConfig := createTempConfig originalConfig files configDir shimPath env.cwd
      .ok ⟨tempPath, configDir, shimPath, shimWritten, tempConfig⟩

example : (⟨toDecimalChars 1204⟩ : String) = "1204" := by decide

/-! ## `src/utils.ts`: `resolvePackageBin` and `preferLocalBin` -/

/-- The `bin` field of a package manifest: a single path or a mapping from
command name to path (`src/types.ts`). -/
inductive BinField where
  | single (s : String)
  | map (entries : List (String × String))

/-- `interface CommandConfig` from `src/types.ts`. -/
structure CommandConfig where
  command : String
  args : List String
deriving DecidableEq

/-- The environment of binary resolution: working directory, platform,
`process.execPath`, `fs.existsSync`, `resolveFrom.silent` (`none` both when
the module cannot be resolved and when the optional call itself is absent),
and the read+parse of a resolved `package.json`'s `bin` field (`.error` is a
thrown read/parse failure, `.ok none` a manifest without `bin`). -/
structure BinEnv where
  cwd : String
  isWin : Bool
  execPath : String
  fsExists : String → Bool
  resolveSilent : String → Option String
  pkgBin : String → Except Unit (Option BinField)

/-- `resolvePackageBin` from `src/utils.ts`.  The JavaScript truthiness
tests `if (!binField)`, `binField[binName] &&` and `firstBin ?` make an
empty-string entry count as absent. -/
def resolvePackageBin (env : BinEnv) (pkgName : String) (binName : Option String) :
    Option String :=
  match env.resolveSilent pkgName with
  | none => none
  | some pkgJsonPath =>
    let pkgRoot := dirname pkgJsonPath
    match env.pkgBin pkgJsonPath with
    | .error _ => none
    | .ok none => none
    | .ok (some (.single b)) =>
      if b = "" then none else some (resolvePath pkgRoot b)
    | .ok (some (.map entries)) =>
      let exactHit : Option String :=
        match binName with
        | some bn =>
          match (entries.find? (fun e => e.1 = bn)).map (fun e => e.2) with
          | some v => if v = "" then none else some v
          | none => none
        | none => none
      match exactHit with
      | some b => some (resolvePath pkgRoot b)
      | none =>
        match entries.head? with
        | some e => if e.2 = "" then none else some (resolvePath pkgRoot e.2)
        | none => none

/-- The regular expression `/\.(c?m)?jsx?$/` of `preferLocalBin`: a path
that looks like a script rather than a native executable. -/
def isScriptPath (p : String) : Bool :=
  [".js", ".jsx", ".mjs", ".mjsx", ".cmjs", ".cmjsx"].any (fun suf => strEndsWith p suf)

/-- The `toolConfig` table of `preferLocalBin`: owning package and declared
command name per tool. -/
def toolConfig : Tool → String × String
  | .vueTsc => ("vue-tsc", "vue-tsc")
  | .glint => ("@glint/core", "glint")
  | .tsc => ("typescript", "tsc")

/-- The local `node_modules/.bin` candidate path probed first by
`preferLocalBin`. -/
def localBinPath (env : BinEnv) (cmd : Tool) : String :=
  let binExtension := if env.isWin then ".cmd" else ""
  ⟨env.cwd.data ++ "/node_modules/.bin/".data ++ (toolName cmd).data ++ binExtension.data⟩

/-- `preferLocalBin` from `src/utils.ts`. -/
def preferLocalBin (env : BinEnv) (cmd : Tool) : CommandConfig :=
  if env.fsExists (localBinPath env cmd) then ⟨localBinPath env cmd, []⟩
  else
    match resolvePackageBin env (toolConfig cmd).1 (some (toolConfig cmd).2) with
    | some resolvedBin =>
      if isScriptPath resolvedBin then ⟨env.execPath, [resolvedBin]⟩
      else ⟨resolvedBin, []⟩
    | none => ⟨toolName cmd, []⟩

/-! ## The CLI entry point: exit paths

The entry point (`main`) wires every asynchronous fatal path through one
helper, `const exit = (code) => { if (cleanup) cleanup(); process.exit(code ?? 0) }`:
the child's `error` event, the child's `exit` event, and the `SIGINT` /
`SIGTERM` handlers all call it.  The remaining fatal sites call
`process.exit(1)` directly: the missing-manifest check in `main`, the
read-diagnostic branch of `buildTempTsconfig`, `validateToolValue`, and the
top-level `main().catch` handler (which an error thrown after the derived
config was created — before or during `spawn` — also reaches). -/

/-- A fatal way out of the process. -/
inductive ExitEvent where
  | childExit (code : Option Int)
  | sigint
  | sigterm
  | spawnError (enoent : Bool)
  | noManifest
  | configReadError
  | invalidTool
  | uncaughtError
deriving DecidableEq

/-- What happens on the way out: whether the cleanup capability ran, and the
process exit status. -/
structure ExitAction where
  cleanupRan : Bool
  exitCode : Int
deriving DecidableEq

/-- The `exit` helper of `main`: runs `cleanup` when one was installed, then
`process.exit(code ?? 0)`. -/
def exitHelper (hasCleanup : Bool) (code : Option Int) : ExitAction :=
  ⟨hasCleanup, code.getD 0⟩

/-- Transcription of every fatal site.  `hasCleanup` is whether
`buildTempTsconfig` had installed the cleanup capability (`cleanup ≠ null`)
when the event fired. -/
def dispatchEvent (hasCleanup : Bool) : ExitEvent → ExitAction
  | .childExit c => exitHelper hasCleanup (some (c.getD 1))
  | .sigint => exitHelper hasCleanup (some 130)
  | .sigterm => exitHelper hasCleanup (some 143)
  | .spawnError _ => exitHelper hasCleanup (some 1)
  | .noManifest => ⟨false, 1⟩
  | .configReadError => ⟨false, 1⟩
  | .invalidTool => ⟨false, 1⟩
  | .uncaughtError => ⟨false, 1⟩

/-! ## Claim-side definitions (for refinement comparison only)

`pickToolClaimed` follows the words of claim C2 / spec §4.3 — the template
step names only `.gts`; `pickToolPatched` is the same precedence with
`.gjs` added to the template step, matching the source.  `truthyDeps`
renders the code's manifest read as the claim's "manifest dependency set":
the names the merged dependency record binds to truthy version strings
(empty on a read/parse failure). -/

def pickToolClaimed (fileArgs : List String) (deps : List String)
    (override : Option Tool) : Tool :=
  match override with
  | some t => t
  | none =>
    if fileArgs.any (fun f => strEndsWith f ".vue") then .vueTsc
    else if fileArgs.any (fun f => strEndsWith f ".gts") then .glint
    else if deps.contains "@glint/core" then .glint
    else if deps.contains "vue-tsc" || deps.contains "vue" then .vueTsc
    else .tsc

def pickToolPatched (fileArgs : List String) (deps : List String)
    (override : Option Tool) : Tool :=
  match override with
  | some t => t
  | none =>
    if fileArgs.any (fun f => strEndsWith f ".vue") then .vueTsc
    else if fileArgs.any (fun f => strEndsWith f ".gts" || strEndsWith f ".gjs") then .glint
    else if deps.contains "@glint/core" then .glint
    else if deps.contains "vue-tsc" || deps.contains "vue" then .vueTsc
    else .tsc

def truthyDeps : Except Unit PackageJson → List String
  | .error _ => []
  | .ok pkg =>
    ((pkg.devDependencies ++ pkg.dependencies).map (fun e => e.1)).filter
      (fun k => hasDep pkg k)

example :
    pickTool ["a.gjs"] (.ok ⟨[], []⟩) none = .glint := by decide
example :
    pickToolClaimed ["a.gjs"] (truthyDeps (.ok ⟨[], []⟩)) none = .tsc := by decide
example :
    preferLocalBin ⟨"/p", false, "/usr/bin/node", fun _ => false,
      fun _ => some "/p/node_modules/typescript/package.json",
      fun _ => .ok (some (.map [("tsc", "lib/tsc.js")]))⟩ .tsc =
      ⟨"/usr/bin/node", ["/p/node_modules/typescript/lib/tsc.js"]⟩ := by decide

/-! ## Lemmas about the object model -/

theorem getKey_map_set_self {es : List (String × JValue)} {k : String} {v : JValue}
    (h : es.any (fun e => e.1 = k) = true) :
    getKey (es.map (fun e => if e.1 = k then (k, v) else e)) k = some v := by
  induction es with
  | nil => simp at h
  | cons e rest ih =>
    by_cases he : e.1 = k
    · simp [getKey, he]
    · simp only [List.any_cons, Bool.or_eq_true, decide_eq_true_eq] at h
      rcases h with h1 | h2
      · exact absurd h1 he
      · simpa [getKey, he] using ih h2

theorem getKey_none_of_not_any {es : List (String × JValue)} {k : String}
    (h : ¬ es.any (fun e => e.1 = k) = true) : getKey es k = none := by
  induction es with
  | nil => rfl
  | cons e rest ih =>
    simp only [List.any_cons, Bool.or_eq_true, decide_eq_true_eq] at h
    push_neg at h
    simp only [getKey, if_neg h.1]
    exact ih (by simpa using h.2)

theorem getKey_append_single_self {es : List (String × JValue)} {k : String}
    {v : JValue} (h : getKey es k = none) : getKey (es ++ [(k, v)]) k = some v := by
  induction es with
  | nil => simp [getKey]
  | cons e rest ih =>
    by_cases he : e.1 = k
    · simp [getKey, he] at h
    · simp only [getKey, if_neg he] at h
      simp only [List.cons_append, getKey, if_neg he]
      exact ih h

theorem getKey_map_set_ne {es : List (String × JValue)} {k k₂ : String}
    {v : JValue} (h : k₂ ≠ k) :
    getKey (es.map (fun e => if e.1 = k then (k, v) else e)) k₂ = getKey es k₂ := by
  induction es with
  | nil => rfl
  | cons e rest ih =>
    by_cases he : e.1 = k
    · have h3 : ¬ (e.1 = k₂) := by rw [he]; exact fun hk => h hk.symm
      have h4 : ¬ (k = k₂) := fun hk => h hk.symm
      simp only [List.map_cons, if_pos he, getKey, if_neg h4, if_neg h3]
      exact ih
    · by_cases he2 : e.1 = k₂
      · simp only [List.map_cons, if_neg he, getKey, if_pos he2]
      · simp only [List.map_cons, if_neg he, getKey, if_neg he2]
        exact ih

theorem getKey_append_single_ne {es : List (String × JValue)} {k k₂ : String}
    {v : JValue} (h : k₂ ≠ k) : getKey (es ++ [(k, v)]) k₂ = getKey es k₂ := by
  induction es with
  | nil =>
    have h4 : ¬ (k = k₂) := fun hk => h hk.symm
    simp [getKey, h4]
  | cons e rest ih =>
    by_cases he2 : e.1 = k₂
    · simp only [List.cons_append, getKey, if_pos he2]
    · simp only [List.cons_append, getKey, if_neg he2]
      exact ih

theorem getKey_setKey_self (es : List (String × JValue)) (k : String) (v : JValue) :
    getKey (setKey es k v) k = some v := by
  unfold setKey
  split
  · exact getKey_map_set_self (by assumption)
  · rename_i h
    exact getKey_append_single_self (getKey_none_of_not_any (by simpa using h))

theorem getKey_setKey_ne (es : List (String × JValue)) (k k₂ : String) (v : JValue)
    (h : k₂ ≠ k) : getKey (setKey es k v) k₂ = getKey es k₂ := by
  unfold setKey
  split
  · exact getKey_map_set_ne h
  · exact getKey_append_single_ne h

theorem getKey_delKey_self (es : List (String × JValue)) (k : String) :
    getKey (delKey es k) k = none := by
  induction es with
  | nil => rfl
  | cons e rest ih =>
    by_cases he : e.1 = k
    · simpa [delKey, List.filter_cons, he] using ih
    · simpa [delKey, List.filter_cons, he, getKey] using ih

theorem getKey_delKey_ne (es : List (String × JValue)) (k k₂ : String)
    (h : k₂ ≠ k) : getKey (delKey es k) k₂ = getKey es k₂ := by
  induction es with
  | nil => rfl
  | cons e rest ih =>
    unfold delKey at ih ⊢
    by_cases he : e.1 = k
    · have h3 : ¬ (e.1 = k₂) := by rw [he]; exact fun hk => h hk.symm
      have hd : (decide (e.1 ≠ k)) = false := by simp [he]
      rw [List.filter_cons, hd]
      simp only [Bool.false_eq_true, if_false]
      rw [show getKey (e :: rest) k₂ = getKey rest k₂ by
        simp only [getKey, if_neg h3]]
      exact ih
    · have hd : (decide (e.1 ≠ k)) = true := by simp [he]
      rw [List.filter_cons, hd]
      simp only [if_true]
      by_cases he2 : e.1 = k₂
      · simp only [getKey, if_pos he2]
      · simp only [getKey, if_neg he2]
        exact ih

theorem mem_setKey_self {es : List (String × JValue)} {k : String} {v : JValue} :
    ∀ e ∈ setKey es k v, e.1 = k → e.2 = v := by
  intro e he hk
  unfold setKey at he
  split at he
  · rcases List.mem_map.mp he with ⟨a, _, hae⟩
    by_cases ha : a.1 = k
    · simp [ha] at hae; rw [← hae]
    · simp [ha] at hae; rw [← hae] at hk; exact absurd hk ha
  · rename_i hany
    rcases List.mem_append.mp he with h1 | h1
    · have : ¬ (es.any (fun e => e.1 = k) = true) := by simpa using hany
      exact absurd (List.any_eq_true.mpr ⟨e, h1, by simpa using hk⟩) this
    · simp at h1; rw [h1]

theorem mem_setKey_preserve {es : List (String × JValue)} {k k₂ : String}
    {v v₂ : JValue} (hk : k ≠ k₂) (h : ∀ e ∈ es, e.1 = k → e.2 = v) :
    ∀ e ∈ setKey es k₂ v₂, e.1 = k → e.2 = v := by
  intro e he hek
  unfold setKey at he
  split at he
  · rcases List.mem_map.mp he with ⟨a, ha, hae⟩
    by_cases ha2 : a.1 = k₂
    · simp [ha2] at hae; rw [← hae] at hek; exact absurd hek.symm hk
    · simp [ha2] at hae; rw [← hae]; exact h a ha (by rw [hae]; exact hek)
  · rcases List.mem_append.mp he with h1 | h1
    · exact h e h1 hek
    · simp at h1; rw [h1] at hek; exact absurd hek.symm hk

theorem isUndef_eq_true_iff (v : JValue) : isUndef v = true ↔ v = JValue.undef := by
  cases v <;> simp [isUndef]

theorem getKey_serializeTop_none {es : List (String × JValue)} {k : String}
    (h : ∀ e ∈ es, e.1 = k → e.2 = JValue.undef) :
    getKey (serializeTop es) k = none := by
  induction es with
  | nil => rfl
  | cons e rest ih =>
    have ih2 := ih (fun x hx hk => h x (List.mem_cons_of_mem e hx) hk)
    unfold serializeTop at ih2 ⊢
    by_cases hu : isUndef e.2 = true
    · rw [List.filter_cons, show (!isUndef e.2) = false by rw [hu]; rfl]
      simp only [Bool.false_eq_true, if_false]
      exact ih2
    · rw [List.filter_cons, show (!isUndef e.2) = true by
        cases hb : isUndef e.2 with
        | true => exact absurd hb hu
        | false => rfl]
      simp only [if_true]
      have he : ¬ (e.1 = k) := by
        intro hk
        exact hu ((isUndef_eq_true_iff e.2).mpr (h e (List.mem_cons_self e rest) hk))
      rw [show getKey (e :: List.filter (fun x => !isUndef x.2) rest) k =
          getKey (List.filter (fun x => !isUndef x.2) rest) k by
        simp only [getKey, if_neg he]]
      exact ih2

theorem getKey_serializeTop_of_ne_undef {es : List (String × JValue)} {k : String}
    (h : ∀ e ∈ es, e.1 = k → e.2 ≠ JValue.undef) :
    getKey (serializeTop es) k = getKey es k := by
  induction es with
  | nil => rfl
  | cons e rest ih =>
    have ih2 := ih (fun x hx hk => h x (List.mem_cons_of_mem e hx) hk)
    unfold serializeTop at ih2 ⊢
    by_cases he : e.1 = k
    · have hv : e.2 ≠ JValue.undef := h e (List.mem_cons_self e rest) he
      have hu : (!isUndef e.2) = true := by
        cases hb : isUndef e.2 with
        | true => exact absurd ((isUndef_eq_true_iff e.2).mp hb) hv
        | false => rfl
      rw [List.filter_cons, hu]
      simp only [if_true, getKey, if_pos he]
    · by_cases hu : isUndef e.2 = true
      · rw [List.filter_cons, show (!isUndef e.2) = false by rw [hu]; rfl]
        simp only [Bool.false_eq_true, if_false]
        rw [show getKey (e :: rest) k = getKey rest k by
          simp only [getKey, if_neg he]]
        exact ih2
      · rw [List.filter_cons, show (!isUndef e.2) = true by
          cases hb : isUndef e.2 with
          | true => exact absurd hb hu
          | false => rfl]
        simp only [if_true]
        rw [show getKey (e :: List.filter (fun x => !isUndef x.2) rest) k =
            getKey (List.filter (fun x => !isUndef x.2) rest) k by
          simp only [getKey, if_neg he],
          show getKey (e :: rest) k = getKey rest k by
            simp only [getKey, if_neg he]]
        exact ih2

/-- The `files` key written by `createTempConfig` when files were requested:
the requested files resolved against `cwd` and relativized to `configDir`,
followed by the relativized shim path. -/
theorem getKey_files_createTempConfig (orig : List (String × JValue))
    (fs : List String) (configDir shimPath cwd : String) (hne : fs ≠ []) :
    getKey (createTempConfig orig (some fs) configDir shimPath cwd) "files" =
      some (.arr ((fs.map (fun f => relativePath cwd configDir (resolvePath cwd f)) ++
        [relativePath cwd configDir shimPath]).map .str)) := by
  unfold createTempConfig
  have hlen : fs.length > 0 := List.length_pos.mpr hne
  simp only [hlen, if_pos]
  rw [getKey_delKey_ne _ _ _ (by decide), getKey_delKey_ne _ _ _ (by decide)]
  exact getKey_setKey_self _ _ _

/-! ## Lemmas about the cleanup filesystem model -/

theorem tryDelete_eq (fs : FS) (p : String) :
    tryDelete fs p =
      if fsExistsSync fs p then
        (if fs.unlinkFails p then fs
         else { fs with files := fs.files.filter (fun q => q ≠ p) })
      else fs := by
  unfold tryDelete fsUnlinkSync
  by_cases hex : fsExistsSync fs p = true
  · by_cases hf : fs.unlinkFails p = true <;> simp [hex, hf]
  · simp only [Bool.not_eq_true] at hex
    simp [hex]

theorem tryDelete_noop_absent {fs : FS} {p : String}
    (h : fsExistsSync fs p = false) : tryDelete fs p = fs := by
  rw [tryDelete_eq, h]
  rfl

theorem tryDelete_noop_fails {fs : FS} {p : String}
    (h : fs.unlinkFails p = true) : tryDelete fs p = fs := by
  rw [tryDelete_eq, h]
  split <;> rfl

theorem unlinkFails_tryDelete (fs : FS) (q : String) :
    (tryDelete fs q).unlinkFails = fs.unlinkFails := by
  rw [tryDelete_eq]
  split
  · split <;> rfl
  · rfl

theorem fsExistsSync_tryDelete_mono {fs : FS} {p q : String}
    (h : fsExistsSync (tryDelete fs q) p = true) : fsExistsSync fs p = true := by
  rw [tryDelete_eq] at h
  split at h
  · split at h
    · exact h
    · simp only [fsExistsSync, List.contains_eq_any_beq, List.any_eq_true] at h ⊢
      rcases h with ⟨x, hx, hbeq⟩
      exact ⟨x, List.mem_of_mem_filter hx, hbeq⟩
  · exact h

theorem fsExistsSync_tryDelete_self {fs : FS} {p : String}
    (h : fs.unlinkFails p = false) : fsExistsSync (tryDelete fs p) p = false := by
  rw [tryDelete_eq, h]
  split
  · simp only [Bool.false_eq_true, if_false, fsExistsSync,
      List.contains_eq_any_beq, List.any_filter]
    rw [List.any_eq_false]
    intro x hx
    by_cases hxp : x = p
    · simp [hxp]
    · simp [hxp, Ne.symm hxp]
  · rename_i hex
    simpa using hex

/-! ## Lemmas about the path embedding -/

theorem takeWhile_append_stop {p : Char → Bool} {xs ys : List Char}
    (h : ∃ x ∈ xs, p x = false) :
    (xs ++ ys).takeWhile p = xs.takeWhile p := by
  rw [List.takeWhile_append]
  split
  · rename_i hlen
    exfalso
    rcases h with ⟨x, hx, hpx⟩
    have hself : xs.takeWhile p = xs :=
      ((List.takeWhile_prefix p).sublist).eq_of_length hlen
    have : p x = true := List.mem_takeWhile_imp (by rw [hself]; exact hx)
    rw [this] at hpx
    cases hpx
  · rfl

theorem takeWhile_append_single_stop {q : Char → Bool} {xs : List Char}
    {c : Char} (hc : q c = false) :
    (xs ++ [c]).takeWhile q = xs.takeWhile q := by
  rw [List.takeWhile_append]
  split
  · rename_i hlen
    have hself : xs.takeWhile q = xs :=
      ((List.takeWhile_prefix q).sublist).eq_of_length hlen
    simp [hc, hself]
  · rfl

theorem takeWhile_ne_of_not_mem {sep : Char} {l : List Char} (h : sep ∉ l) :
    l.takeWhile (fun c => c ≠ sep) = l := by
  have hall : ∀ x ∈ l, (fun c => c ≠ sep : Char → Bool) x = true := by
    intro x hx
    simp only [ne_eq, decide_eq_true_eq]
    intro hx2
    rw [hx2] at hx
    exact h hx
  have := @List.takeWhile_append_of_pos _ _ l ([] : List Char) hall
  simpa using this

theorem lastRun_of_not_mem {sep : Char} {l : List Char} (h : sep ∉ l) :
    (l.reverse.takeWhile (fun c => c ≠ sep)).reverse = l := by
  rw [takeWhile_ne_of_not_mem (by simpa using h), List.reverse_reverse]

theorem lastRun_cons_of_mem {sep c : Char} {rest : List Char} (h : sep ∈ rest) :
    ((c :: rest).reverse.takeWhile (fun x => x ≠ sep)).reverse =
      (rest.reverse.takeWhile (fun x => x ≠ sep)).reverse := by
  rw [List.reverse_cons,
    takeWhile_append_stop ⟨sep, List.mem_reverse.mpr h, by simp⟩]

theorem lastSegChars_of_no_slash {l : List Char} (h : '/' ∉ l) :
    lastSegChars l = l :=
  lastRun_of_not_mem h

theorem lastSegChars_cons_of_mem {c : Char} {rest : List Char}
    (h : '/' ∈ rest) : lastSegChars (c :: rest) = lastSegChars rest :=
  lastRun_cons_of_mem h

theorem splitChar_ne_nil (sep : Char) (l : List Char) : splitChar sep l ≠ [] := by
  cases l with
  | nil => simp [splitChar]
  | cons c rest =>
    unfold splitChar
    cases splitChar sep rest with
    | nil => simp
    | cons s ss =>
      by_cases hc : c = sep <;> simp [hc]

theorem splitChar_spec (sep : Char) (l : List Char) :
    (∃ ss, splitChar sep l =
      ss ++ [(l.reverse.takeWhile (fun c => c ≠ sep)).reverse]) ∧
    ((splitChar sep l).length = 1 ↔ sep ∉ l) := by
  induction l with
  | nil => exact ⟨⟨[], rfl⟩, by simp [splitChar]⟩
  | cons c rest ih =>
    obtain ⟨⟨ss, hss⟩, hlen⟩ := ih
    by_cases hc : c = sep
    · subst hc
      have hsplit : splitChar c (c :: rest) = [] :: splitChar c rest := by
        conv_lhs => unfold splitChar
        cases hr : splitChar c rest with
        | nil => exact absurd hr (splitChar_ne_nil c rest)
        | cons s2 ss2 => simp
      constructor
      · refine ⟨[] :: ss, ?_⟩
        rw [hsplit, hss]
        have : (c :: rest).reverse.takeWhile (fun x => x ≠ c) =
            rest.reverse.takeWhile (fun x => x ≠ c) := by
          rw [List.reverse_cons, takeWhile_append_single_stop (by simp)]
        rw [show ((c :: rest).reverse.takeWhile (fun x => x ≠ c)).reverse =
            (rest.reverse.takeWhile (fun x => x ≠ c)).reverse by rw [this]]
        rfl
      · rw [hsplit]
        constructor
        · intro hl
          exfalso
          simp only [List.length_cons] at hl
          have : (splitChar c rest).length = 0 := by omega
          exact absurd (List.length_eq_zero.mp this) (splitChar_ne_nil c rest)
        · intro hmem
          exact absurd (by simp : c ∈ c :: rest) hmem
    · cases hr : splitChar sep rest with
      | nil => exact absurd hr (splitChar_ne_nil sep rest)
      | cons s2 ss2 =>
        have hsplit : splitChar sep (c :: rest) = (c :: s2) :: ss2 := by
          unfold splitChar
          rw [hr]
          simp [hc]
        rw [hr] at hss
        constructor
        · cases ss with
          | nil =>
            simp only [List.nil_append, List.cons.injEq] at hss
            have hrest : sep ∉ rest := by
              rw [← hlen, hr, hss.2]
              rfl
            have hcrest : sep ∉ c :: rest := by
              intro hm
              rcases List.mem_cons.mp hm with h1 | h1
              · exact hc h1.symm
              · exact hrest h1
            refine ⟨[], ?_⟩
            rw [hsplit, hss.2, List.nil_append,
              lastRun_of_not_mem hcrest,
              hss.1, lastRun_of_not_mem hrest]
          | cons a as =>
            simp only [List.cons_append, List.cons.injEq] at hss
            have hmem : sep ∈ rest := by
              by_contra hnm
              have h1 : (splitChar sep rest).length = 1 := hlen.mpr hnm
              rw [hr, hss.2] at h1
              simp at h1
            refine ⟨(c :: a) :: as, ?_⟩
            rw [hsplit, hss.2, hss.1, lastRun_cons_of_mem hmem]
            rfl
        · rw [hsplit]
          have hmemiff : sep ∈ c :: rest ↔ sep ∈ rest := by
            constructor
            · intro hm
              rcases List.mem_cons.mp hm with h1 | h1
              · exact absurd h1.symm hc
              · exact h1
            · exact List.mem_cons_of_mem c
          rw [show ((c :: s2) :: ss2).length = (s2 :: ss2).length by simp,
            ← hr, hlen]
          exact ⟨fun h => fun hm => h (hmemiff.mp hm),
            fun h => fun hm => h (hmemiff.mpr hm)⟩

theorem extnameChars_of_dot_suffix {rcs w b : List Char} (hne : rcs ≠ [])
    (hnd : ∀ c ∈ rcs, c ≠ '.') (hb : b.reverse = rcs ++ '.' :: w) :
    extnameChars b = [] ∨ extnameChars b = '.' :: rcs.reverse := by
  have hpre : b.reverse.takeWhile (fun c => c ≠ '.') = rcs := by
    rw [hb, List.takeWhile_append_of_pos
      (by intro x hx; simpa using hnd x hx),
      List.takeWhile_cons_of_neg (by simp)]
    simp
  unfold extnameChars
  rw [hpre, hb]
  rw [if_neg (by intro hcontra; simp at hcontra)]
  by_cases hw : w = []
  · left
    rw [if_pos (by simp [hw])]
  · right
    rw [if_neg (by
      intro hcontra
      simp only [List.length_append, List.length_cons] at hcontra
      exact hw (List.length_eq_zero.mp (by omega)))]
    rw [if_neg ?hbne]
    case hbne =>
      intro hbeq
      obtain ⟨c, rcs2, rfl⟩ : ∃ c rcs2, rcs = c :: rcs2 := by
        cases rcs with
        | nil => exact absurd rfl hne
        | cons c rcs2 => exact ⟨c, rcs2, rfl⟩
      rw [hbeq] at hb
      simp only [List.cons_append] at hb
      have : ('.' : Char) = c := by
        have := congrArg (fun l => l.head?) hb
        simpa using this
      exact hnd c (by simp) this.symm

theorem lastRun_dot_suffix {rcs w l : List Char} (hnd : ∀ c ∈ rcs, c ≠ '/')
    (hl : l.reverse = rcs ++ '.' :: w) :
    (lastSegChars l).reverse = rcs ++ '.' :: (w.takeWhile (fun c => c ≠ '/')) := by
  unfold lastSegChars
  rw [List.reverse_reverse, hl,
    List.takeWhile_append_of_pos (by intro x hx; simpa using hnd x hx),
    List.takeWhile_cons_of_pos (by simp)]

theorem normStep_push {stack : List (List Char)} {s : List Char}
    (h0 : s ≠ []) (h1 : s ≠ ['.']) (h2 : s ≠ ['.', '.']) :
    normStep stack s = stack ++ [s] := by
  unfold normStep
  rw [if_neg h0, if_neg h1, if_neg h2]

theorem joinSegs_cons_cons (x y : List Char) (ys : List (List Char)) :
    joinSegs (x :: y :: ys) = x ++ '/' :: joinSegs (y :: ys) := rfl

theorem joinSegs_append_single (xs : List (List Char)) (s : List Char) :
    ∃ pre, joinSegs (xs ++ [s]) = pre ++ s := by
  induction xs with
  | nil => exact ⟨[], rfl⟩
  | cons x xs ih =>
    rcases ih with ⟨pre, hpre⟩
    cases xs with
    | nil => exact ⟨x ++ ['/'], by simp [joinSegs]⟩
    | cons y ys =>
      refine ⟨x ++ '/' :: pre, ?_⟩
      rw [List.cons_append, List.cons_append, joinSegs_cons_cons,
        ← List.cons_append, hpre]
      simp

/-- The chain from a dotted suffix of the raw token to the extension of the
resolved path: if the token's characters end with `'.' :: cs` (here given
reversed, `rcs`, with no dot and no slash among `cs`), then `path.extname`
of `path.resolve(cwd, token)` is either empty (hidden-file case) or exactly
`'.' :: cs`. -/
theorem extname_resolvePath_of_dot_suffix (cwd arg : String) {rcs u : List Char}
    (hne : rcs ≠ []) (hnd : ∀ c ∈ rcs, c ≠ '.' ∧ c ≠ '/')
    (harg : arg.data.reverse = rcs ++ '.' :: u) :
    extname (resolvePath cwd arg) = (⟨[]⟩ : String) ∨
    extname (resolvePath cwd arg) = (⟨'.' :: rcs.reverse⟩ : String) := by
  obtain ⟨c, rcs2, rfl⟩ : ∃ c rcs2, rcs = c :: rcs2 := by
    cases rcs with
    | nil => exact absurd rfl hne
    | cons c rcs2 => exact ⟨c, rcs2, rfl⟩
  obtain ⟨u2, hjoined⟩ : ∃ u2,
      (if arg.data.head? = some '/' then arg.data
       else cwd.data ++ '/' :: arg.data).reverse = (c :: rcs2) ++ '.' :: u2 := by
    by_cases habs : arg.data.head? = some '/'
    · exact ⟨u, by rw [if_pos habs, harg]⟩
    · refine ⟨u ++ '/' :: cwd.data.reverse, ?_⟩
      rw [if_neg habs, List.reverse_append, List.reverse_cons, harg]
      simp
  obtain ⟨ss, hss⟩ := (splitChar_spec '/'
    (if arg.data.head? = some '/' then arg.data
     else cwd.data ++ '/' :: arg.data)).1
  have hsseg : (((if arg.data.head? = some '/' then arg.data
      else cwd.data ++ '/' :: arg.data).reverse.takeWhile
        (fun x => x ≠ '/')).reverse).reverse =
      (c :: rcs2) ++ '.' :: (u2.takeWhile (fun x => x ≠ '/')) := by
    rw [List.reverse_reverse, hjoined,
      List.takeWhile_append_of_pos
        (by intro x hx; simpa using (hnd x hx).2),
      List.takeWhile_cons_of_pos (by simp)]
  have hns : ((if arg.data.head? = some '/' then arg.data
      else cwd.data ++ '/' :: arg.data).reverse.takeWhile
        (fun x => x ≠ '/')).reverse ≠ [] ∧
      ((if arg.data.head? = some '/' then arg.data
      else cwd.data ++ '/' :: arg.data).reverse.takeWhile
        (fun x => x ≠ '/')).reverse ≠ ['.'] ∧
      ((if arg.data.head? = some '/' then arg.data
      else cwd.data ++ '/' :: arg.data).reverse.takeWhile
        (fun x => x ≠ '/')).reverse ≠ ['.', '.'] := by
    refine ⟨?_, ?_, ?_⟩
    · intro h0
      rw [h0] at hsseg
      simp at hsseg
    · intro h0
      rw [h0] at hsseg
      simp only [List.reverse_cons, List.reverse_nil, List.nil_append,
        List.cons_append, List.cons.injEq] at hsseg
      exact (hnd c (by simp)).1 hsseg.1.symm
    · intro h0
      rw [h0] at hsseg
      simp only [List.reverse_cons, List.reverse_nil, List.nil_append,
        List.cons_append, List.cons.injEq] at hsseg
      exact (hnd c (by simp)).1 hsseg.1.symm
  have hstack : resolveSegs cwd.data arg.data =
      (List.foldl normStep [] ss) ++
        [((if arg.data.head? = some '/' then arg.data
          else cwd.data ++ '/' :: arg.data).reverse.takeWhile
            (fun x => x ≠ '/')).reverse] := by
    have hrs : resolveSegs cwd.data arg.data =
        (splitSegs (if arg.data.head? = some '/' then arg.data
          else cwd.data ++ '/' :: arg.data)).foldl normStep [] := rfl
    rw [hrs, show splitSegs = splitChar '/' from rfl, hss,
      List.foldl_append, List.foldl_cons, List.foldl_nil]
    exact normStep_push hns.1 hns.2.1 hns.2.2
  obtain ⟨pre, hpre⟩ := joinSegs_append_single (List.foldl normStep [] ss)
    (((if arg.data.head? = some '/' then arg.data
      else cwd.data ++ '/' :: arg.data).reverse.takeWhile
        (fun x => x ≠ '/')).reverse)
  have hres : (resolvePath cwd arg).data.reverse =
      (c :: rcs2) ++ '.' :: ((u2.takeWhile (fun x => x ≠ '/')) ++
        ('/' :: pre).reverse) := by
    show ('/' :: joinSegs (resolveSegs cwd.data arg.data)).reverse = _
    rw [hstack, hpre, List.reverse_cons, ← List.cons_append,
      List.reverse_append, hsseg]
    simp
  have hlseg := lastRun_dot_suffix
    (fun x hx => (hnd x hx).2) hres
  have hcases := extnameChars_of_dot_suffix hne
    (fun x hx => (hnd x hx).1) hlseg
  rcases hcases with h0 | h0
  · left
    show (⟨extnameChars (lastSegChars (resolvePath cwd arg).data)⟩ : String) = _
    rw [h0]
  · right
    show (⟨extnameChars (lastSegChars (resolvePath cwd arg).data)⟩ : String) = _
    rw [h0]

/-- A token ending in `.js` is never classified as a file argument: its
resolved path's extension is `""` or `".js"`, neither of which is in
`FILE_EXTS`. -/
theorem isFileArg_js_false (ex : String → Bool) (cwd arg : String)
    (h : strEndsWith arg ".js" = true) : isFileArg ex cwd arg = false := by
  obtain ⟨t, ht⟩ : ".js".data <:+ arg.data := by
    unfold strEndsWith at h
    exact List.isSuffixOf_iff_suffix.mp h
  have harg : arg.data.reverse = ['s', 'j'] ++ '.' :: t.reverse := by
    rw [← ht, List.reverse_append]
    rfl
  have hcases := @extname_resolvePath_of_dot_suffix cwd arg ['s', 'j']
    t.reverse (by decide) (by decide) harg
  show (FILE_EXTS.contains (extname (resolvePath cwd arg)) &&
    ex (resolvePath cwd arg)) = false
  rcases hcases with h0 | h0
  · rw [h0, show FILE_EXTS.contains (⟨[]⟩ : String) = false from by decide,
      Bool.false_and]
  · rw [h0, show FILE_EXTS.contains (⟨'.' :: ['s', 'j'].reverse⟩ : String) = false
      from by decide, Bool.false_and]

/-- A token ending in `.gjs` is never classified as a file argument. -/
theorem isFileArg_gjs_false (ex : String → Bool) (cwd arg : String)
    (h : strEndsWith arg ".gjs" = true) : isFileArg ex cwd arg = false := by
  obtain ⟨t, ht⟩ : ".gjs".data <:+ arg.data := by
    unfold strEndsWith at h
    exact List.isSuffixOf_iff_suffix.mp h
  have harg : arg.data.reverse = ['s', 'j', 'g'] ++ '.' :: t.reverse := by
    rw [← ht, List.reverse_append]
    rfl
  have hcases := @extname_resolvePath_of_dot_suffix cwd arg ['s', 'j', 'g']
    t.reverse (by decide) (by decide) harg
  show (FILE_EXTS.contains (extname (resolvePath cwd arg)) &&
    ex (resolvePath cwd arg)) = false
  rcases hcases with h0 | h0
  · rw [h0, show FILE_EXTS.contains (⟨[]⟩ : String) = false from by decide,
      Bool.false_and]
  · rw [h0, show FILE_EXTS.contains (⟨'.' :: ['s', 'j', 'g'].reverse⟩ : String) =
      false from by decide, Bool.false_and]

theorem parseArgs_ok_fileArgs {ex : String → Bool} {cwd : String}
    {argv : List String} {r : ParsedArgs} (h : parseArgs ex cwd argv = .ok r) :
    r.fileArgs = argv.filter (isFileArg ex cwd) := by
  unfold parseArgs at h
  simp only [bind, Except.bind, Except.map, pure, Except.pure] at h
  repeat' split at h
  all_goals
    first
      | exact (Except.noConfusion h)
      | (cases h; rfl)

theorem pickToolPatched_eq_claimed_of_no_gjs {fa deps : List String}
    {o : Option Tool} (h : ∀ f ∈ fa, strEndsWith f ".gjs" = false) :
    pickToolPatched fa deps o = pickToolClaimed fa deps o := by
  unfold pickToolPatched pickToolClaimed
  cases o with
  | some t => rfl
  | none =>
    have hany : (fa.any fun f => strEndsWith f ".gts" || strEndsWith f ".gjs") =
        (fa.any fun f => strEndsWith f ".gts") := by
      rw [Bool.eq_iff_iff, List.any_eq_true, List.any_eq_true]
      constructor
      · rintro ⟨x, hx, hgx⟩
        rcases Bool.or_eq_true .. |>.mp hgx with h1 | h1
        · exact ⟨x, hx, h1⟩
        · rw [h x hx] at h1
          cases h1
      · rintro ⟨x, hx, hgx⟩
        exact ⟨x, hx, by rw [hgx]; rfl⟩
    rw [hany]

/-! ## Lemmas bridging the manifest read and the dependency set -/

theorem hasDep_mem_keys {pkg : PackageJson} {k : String}
    (h : hasDep pkg k = true) :
    k ∈ (pkg.devDependencies ++ pkg.dependencies).map (fun e => e.1) := by
  unfold hasDep mergedDep at h
  cases hfind : pkg.devDependencies.find? (fun e => e.1 = k) with
  | some e =>
    have he : e.1 = k := by simpa using List.find?_some hfind
    have hmem := List.mem_of_find?_eq_some hfind
    exact List.mem_map.mpr ⟨e, List.mem_append_left _ hmem, he⟩
  | none =>
    rw [hfind] at h
    cases hfind2 : pkg.dependencies.find? (fun e => e.1 = k) with
    | some e =>
      have he : e.1 = k := by simpa using List.find?_some hfind2
      have hmem := List.mem_of_find?_eq_some hfind2
      exact List.mem_map.mpr ⟨e, List.mem_append_right _ hmem, he⟩
    | none => rw [hfind2] at h; simp at h

theorem truthyDeps_contains (pkgRead : Except Unit PackageJson) (k : String) :
    (truthyDeps pkgRead).contains k =
      (match pkgRead with
       | .error _ => false
       | .ok pkg => hasDep pkg k) := by
  cases pkgRead with
  | error u => rfl
  | ok pkg =>
    unfold truthyDeps
    rw [List.contains_eq_any_beq, List.any_filter]
    show _ = hasDep pkg k
    cases hk : hasDep pkg k with
    | true =>
      rw [List.any_eq_true]
      exact ⟨k, hasDep_mem_keys hk, by simp [hk]⟩
    | false =>
      rw [List.any_eq_false]
      intro x hx
      by_cases hxk : x = k
      · rw [hxk, hk]
        simp
      · simp [Ne.symm hxk]

/-! ## Lemmas about the decimal timestamp rendering -/

theorem toDecimalCore_congr : ∀ (n f₁ f₂ : Nat), n < f₁ → n < f₂ →
    toDecimalCore f₁ n = toDecimalCore f₂ n := by
  intro n
  induction n using Nat.strong_induction_on with
  | _ n ih =>
    intro f₁ f₂ h₁ h₂
    cases f₁ with
    | zero => omega
    | succ g₁ =>
      cases f₂ with
      | zero => omega
      | succ g₂ =>
        unfold toDecimalCore
        by_cases hn : n < 10
        · rw [if_pos hn, if_pos hn]
        · rw [if_neg hn, if_neg hn]
          have hd : n / 10 < n := Nat.div_lt_self (by omega) (by omega)
          rw [ih (n / 10) hd g₁ g₂ (by omega) (by omega)]

theorem toDecimalChars_unfold (n : Nat) :
    toDecimalChars n =
      if n < 10 then [Nat.digitChar n]
      else toDecimalChars (n / 10) ++ [Nat.digitChar (n % 10)] := by
  unfold toDecimalChars
  conv_lhs => unfold toDecimalCore
  by_cases hn : n < 10
  · rw [if_pos hn, if_pos hn]
  · rw [if_neg hn, if_neg hn]
    have hd : n / 10 < n := Nat.div_lt_self (by omega) (by omega)
    rw [toDecimalCore_congr (n / 10) n (n / 10 + 1) hd (by omega)]

theorem toDecimalChars_ne_nil (n : Nat) : toDecimalChars n ≠ [] := by
  rw [toDecimalChars_unfold]
  split
  · simp
  · simp

theorem digitChar_inj_fin : ∀ (a b : Fin 10),
    Nat.digitChar a.val = Nat.digitChar b.val → a = b := by
  decide

theorem toDecimalChars_inj : ∀ (m n : Nat),
    toDecimalChars m = toDecimalChars n → m = n := by
  intro m
  induction m using Nat.strong_induction_on with
  | _ m ih =>
    intro n h
    rw [toDecimalChars_unfold m, toDecimalChars_unfold n] at h
    by_cases hm : m < 10
    · by_cases hn : n < 10
      · rw [if_pos hm, if_pos hn] at h
        simp only [List.cons.injEq, and_true] at h
        have := digitChar_inj_fin ⟨m, hm⟩ ⟨n, hn⟩ h
        simpa using congrArg Fin.val this
      · rw [if_pos hm, if_neg hn] at h
        have hlen := congrArg List.length h
        simp only [List.length_cons, List.length_append,
          List.length_nil] at hlen
        have : toDecimalChars (n / 10) = [] := by
          apply List.length_eq_zero.mp
          omega
        exact absurd this (toDecimalChars_ne_nil (n / 10))
    · by_cases hn : n < 10
      · rw [if_neg hm, if_pos hn] at h
        have hlen := congrArg List.length h
        simp only [List.length_cons, List.length_append,
          List.length_nil] at hlen
        have : toDecimalChars (m / 10) = [] := by
          apply List.length_eq_zero.mp
          omega
        exact absurd this (toDecimalChars_ne_nil (m / 10))
      · rw [if_neg hm, if_neg hn] at h
        have hinj := List.append_inj' h (by simp)
        have hdiv : m / 10 = n / 10 :=
          ih (m / 10) (Nat.div_lt_self (by omega) (by omega)) (n / 10) hinj.1
        have hx : Nat.digitChar (m % 10) = Nat.digitChar (n % 10) := by
          have := hinj.2
          simpa using this
        have hmod : m % 10 = n % 10 := by
          have := digitChar_inj_fin ⟨m % 10, Nat.mod_lt m (by omega)⟩
            ⟨n % 10, Nat.mod_lt n (by omega)⟩ hx
          simpa using congrArg Fin.val this
        have h1 := Nat.div_add_mod m 10
        have h2 := Nat.div_add_mod n 10
        omega

/-! ## Claim theorems -/

/-- C1: for every original configuration object, non-empty requested file
list, configuration directory and shim path, the derived configuration
shallow-copies every other top-level key, overrides `compilerOptions` with
`noEmit` true, `composite`/`incremental` false, `outDir`/`rootDir`/
`tsBuildInfoFile` unset (absent after serialization) while keeping all other
options, sets `files` to exactly the requested files (resolved against the
working directory, relativized to the configuration directory) followed by
the relativized shim path, and removes `include` and `exclude`. -/
theorem createTempConfig_explicit_files_spec
    (orig : List (String × JValue)) (fs : List String)
    (configDir shimPath cwd : String) (hne : fs ≠ []) :
    (∀ k, k ≠ "compilerOptions" → k ≠ "files" → k ≠ "include" → k ≠ "exclude" →
      getKey (createTempConfig orig (some fs) configDir shimPath cwd) k = getKey orig k) ∧
    (∃ co, getKey (createTempConfig orig (some fs) configDir shimPath cwd)
        "compilerOptions" = some (.obj co) ∧
      getKey co "noEmit" = some (.bool true) ∧
      getKey co "composite" = some (.bool false) ∧
      getKey co "incremental" = some (.bool false) ∧
      getKey (serializeTop co) "outDir" = none ∧
      getKey (serializeTop co) "rootDir" = none ∧
      getKey (serializeTop co) "tsBuildInfoFile" = none ∧
      (∀ k, k ≠ "noEmit" → k ≠ "outDir" → k ≠ "rootDir" → k ≠ "composite" →
        k ≠ "incremental" → k ≠ "tsBuildInfoFile" →
        getKey co k = getKey (compilerOptionsOf orig) k)) ∧
    getKey (createTempConfig orig (some fs) configDir shimPath cwd) "files" =
      some (.arr ((fs.map (fun f => relativePath cwd configDir (resolvePath cwd f)) ++
        [relativePath cwd configDir shimPath]).map .str)) ∧
    getKey (createTempConfig orig (some fs) configDir shimPath cwd) "include" = none ∧
    getKey (createTempConfig orig (some fs) configDir shimPath cwd) "exclude" = none := by
  have hlen : fs.length > 0 := List.length_pos.mpr hne
  refine ⟨?_, ?_, getKey_files_createTempConfig orig fs configDir shimPath cwd hne, ?_, ?_⟩
  · intro k hco hfi hin hex
    unfold createTempConfig
    simp only [hlen, if_pos]
    rw [getKey_delKey_ne _ _ _ hex, getKey_delKey_ne _ _ _ hin,
      getKey_setKey_ne _ _ _ _ hfi, getKey_setKey_ne _ _ _ _ hco]
  · refine ⟨setKey (setKey (setKey (setKey (setKey (setKey
      (compilerOptionsOf orig)
      "noEmit" (.bool true))
      "outDir" .undef)
      "rootDir" .undef)
      "composite" (.bool false))
      "incremental" (.bool false))
      "tsBuildInfoFile" .undef, ?_, ?_, ?_, ?_, ?_, ?_, ?_, ?_⟩
    · unfold createTempConfig
      simp only [hlen, if_pos]
      rw [getKey_delKey_ne _ _ _ (by decide), getKey_delKey_ne _ _ _ (by decide),
        getKey_setKey_ne _ _ _ _ (by decide)]
      exact getKey_setKey_self _ _ _
    · rw [getKey_setKey_ne _ _ _ _ (by decide), getKey_setKey_ne _ _ _ _ (by decide),
        getKey_setKey_ne _ _ _ _ (by decide), getKey_setKey_ne _ _ _ _ (by decide),
        getKey_setKey_ne _ _ _ _ (by decide)]
      exact getKey_setKey_self _ _ _
    · rw [getKey_setKey_ne _ _ _ _ (by decide), getKey_setKey_ne _ _ _ _ (by decide)]
      exact getKey_setKey_self _ _ _
    · rw [getKey_setKey_ne _ _ _ _ (by decide)]
      exact getKey_setKey_self _ _ _
    · exact getKey_serializeTop_none
        (mem_setKey_preserve (by decide) (mem_setKey_preserve (by decide)
          (mem_setKey_preserve (by decide) (mem_setKey_preserve (by decide)
            mem_setKey_self))))
    · exact getKey_serializeTop_none
        (mem_setKey_preserve (by decide) (mem_setKey_preserve (by decide)
          (mem_setKey_preserve (by decide) mem_setKey_self)))
    · exact getKey_serializeTop_none mem_setKey_self
    · intro k h1 h2 h3 h4 h5 h6
      rw [getKey_setKey_ne _ _ _ _ h6, getKey_setKey_ne _ _ _ _ h5,
        getKey_setKey_ne _ _ _ _ h4, getKey_setKey_ne _ _ _ _ h3,
        getKey_setKey_ne _ _ _ _ h2, getKey_setKey_ne _ _ _ _ h1]
  · unfold createTempConfig
    simp only [hlen, if_pos]
    rw [getKey_delKey_ne _ _ _ (by decide)]
    exact getKey_delKey_self _ _
  · unfold createTempConfig
    simp only [hlen, if_pos]
    exact getKey_delKey_self _ _

/-- C8: when no explicit files are requested (`null` or empty list), the
derived configuration keeps `include`/`exclude` unchanged, adds no `files`
key, leaves every top-level key other than `compilerOptions` identical, and
only applies the emission/incremental `compilerOptions` overrides. -/
theorem createTempConfig_no_files_spec
    (orig : List (String × JValue)) (files : Option (List String))
    (configDir shimPath cwd : String)
    (h : files = none ∨ files = some []) :
    (∀ k, k ≠ "compilerOptions" →
      getKey (createTempConfig orig files configDir shimPath cwd) k = getKey orig k) ∧
    getKey (createTempConfig orig files configDir shimPath cwd) "include" =
      getKey orig "include" ∧
    getKey (createTempConfig orig files configDir shimPath cwd) "exclude" =
      getKey orig "exclude" ∧
    getKey (createTempConfig orig files configDir shimPath cwd) "files" =
      getKey orig "files" ∧
    (∃ co, getKey (createTempConfig orig files configDir shimPath cwd)
        "compilerOptions" = some (.obj co) ∧
      getKey co "noEmit" = some (.bool true) ∧
      getKey co "composite" = some (.bool false) ∧
      getKey co "incremental" = some (.bool false) ∧
      getKey (serializeTop co) "outDir" = none ∧
      getKey (serializeTop co) "rootDir" = none ∧
      getKey (serializeTop co) "tsBuildInfoFile" = none ∧
      (∀ k, k ≠ "noEmit" → k ≠ "outDir" → k ≠ "rootDir" → k ≠ "composite" →
        k ≠ "incremental" → k ≠ "tsBuildInfoFile" →
        getKey co k = getKey (compilerOptionsOf orig) k)) := by
  have key : createTempConfig orig files configDir shimPath cwd =
      setKey orig "compilerOptions" (.obj (setKey (setKey (setKey (setKey (setKey (setKey
        (compilerOptionsOf orig)
        "noEmit" (.bool true))
        "outDir" .undef)
        "rootDir" .undef)
        "composite" (.bool false))
        "incremental" (.bool false))
        "tsBuildInfoFile" .undef)) := by
    rcases h with h | h <;> subst h <;> rfl
  rw [key]
  refine ⟨?_, ?_, ?_, ?_, ?_⟩
  · intro k hco
    rw [getKey_setKey_ne _ _ _ _ hco]
  · rw [getKey_setKey_ne _ _ _ _ (by decide)]
  · rw [getKey_setKey_ne _ _ _ _ (by decide)]
  · rw [getKey_setKey_ne _ _ _ _ (by decide)]
  · refine ⟨_, getKey_setKey_self _ _ _, ?_, ?_, ?_, ?_, ?_, ?_, ?_⟩
    · rw [getKey_setKey_ne _ _ _ _ (by decide), getKey_setKey_ne _ _ _ _ (by decide),
        getKey_setKey_ne _ _ _ _ (by decide), getKey_setKey_ne _ _ _ _ (by decide),
        getKey_setKey_ne _ _ _ _ (by decide)]
      exact getKey_setKey_self _ _ _
    · rw [getKey_setKey_ne _ _ _ _ (by decide), getKey_setKey_ne _ _ _ _ (by decide)]
      exact getKey_setKey_self _ _ _
    · rw [getKey_setKey_ne _ _ _ _ (by decide)]
      exact getKey_setKey_self _ _ _
    · exact getKey_serializeTop_none
        (mem_setKey_preserve (by decide) (mem_setKey_preserve (by decide)
          (mem_setKey_preserve (by decide) (mem_setKey_preserve (by decide)
            mem_setKey_self))))
    · exact getKey_serializeTop_none
        (mem_setKey_preserve (by decide) (mem_setKey_preserve (by decide)
          (mem_setKey_preserve (by decide) mem_setKey_self)))
    · exact getKey_serializeTop_none mem_setKey_self
    · intro k h1 h2 h3 h4 h5 h6
      rw [getKey_setKey_ne _ _ _ _ h6, getKey_setKey_ne _ _ _ _ h5,
        getKey_setKey_ne _ _ _ _ h4, getKey_setKey_ne _ _ _ _ h3,
        getKey_setKey_ne _ _ _ _ h2, getKey_setKey_ne _ _ _ _ h1]

theorem createTempConfig_explicit_files_witness :
    (["a.ts"] : List String) ≠ [] ∧
    ((∀ k, k ≠ "compilerOptions" → k ≠ "files" → k ≠ "include" → k ≠ "exclude" →
      getKey (createTempConfig [("include", .arr [.str "src"])] (some ["a.ts"])
        "/proj" "/proj/s.d.ts" "/proj") k =
        getKey [("include", .arr [.str "src"])] k) ∧
    (∃ co, getKey (createTempConfig [("include", .arr [.str "src"])] (some ["a.ts"])
        "/proj" "/proj/s.d.ts" "/proj") "compilerOptions" = some (.obj co) ∧
      getKey co "noEmit" = some (.bool true) ∧
      getKey co "composite" = some (.bool false) ∧
      getKey co "incremental" = some (.bool false) ∧
      getKey (serializeTop co) "outDir" = none ∧
      getKey (serializeTop co) "rootDir" = none ∧
      getKey (serializeTop co) "tsBuildInfoFile" = none ∧
      (∀ k, k ≠ "noEmit" → k ≠ "outDir" → k ≠ "rootDir" → k ≠ "composite" →
        k ≠ "incremental" → k ≠ "tsBuildInfoFile" →
        getKey co k = getKey (compilerOptionsOf [("include", .arr [.str "src"])]) k)) ∧
    getKey (createTempConfig [("include", .arr [.str "src"])] (some ["a.ts"])
      "/proj" "/proj/s.d.ts" "/proj") "files" =
      some (.arr ((List.map (fun f => relativePath "/proj" "/proj" (resolvePath "/proj" f))
        ["a.ts"] ++ [relativePath "/proj" "/proj" "/proj/s.d.ts"]).map .str)) ∧
    getKey (createTempConfig [("include", .arr [.str "src"])] (some ["a.ts"])
      "/proj" "/proj/s.d.ts" "/proj") "include" = none ∧
    getKey (createTempConfig [("include", .arr [.str "src"])] (some ["a.ts"])
      "/proj" "/proj/s.d.ts" "/proj") "exclude" = none) :=
  ⟨by decide,
    createTempConfig_explicit_files_spec [("include", .arr [.str "src"])] ["a.ts"]
      "/proj" "/proj/s.d.ts" "/proj" (by decide)⟩

/-- C4: the cleanup capability is idempotent and total: re-invoking it
leaves the filesystem state unchanged, a pass whose deletions succeed leaves
neither the derived configuration file nor the shim file on disk, and when
both files are already missing cleanup is a no-op (a missing file is not an
error; thrown deletion errors are swallowed — the embedding of the
`try/catch` blocks returns a state instead of propagating any error). -/
theorem cleanup_idempotent_spec (t s : String) (fs : FS) :
    cleanupTemp t s (cleanupTemp t s fs) = cleanupTemp t s fs ∧
    (fsExistsSync fs t = false → fsExistsSync fs s = false →
      cleanupTemp t s fs = fs) ∧
    (fs.unlinkFails t = false → fs.unlinkFails s = false →
      fsExistsSync (cleanupTemp t s fs) t = false ∧
      fsExistsSync (cleanupTemp t s fs) s = false) := by
  refine ⟨?_, ?_, ?_⟩
  · show tryDelete (tryDelete (cleanupTemp t s fs) t) s = cleanupTemp t s fs
    have hA : tryDelete (cleanupTemp t s fs) t = cleanupTemp t s fs := by
      by_cases hft : fs.unlinkFails t = true
      · exact tryDelete_noop_fails (by
          rw [show (cleanupTemp t s fs).unlinkFails = fs.unlinkFails by
            unfold cleanupTemp
            rw [unlinkFails_tryDelete, unlinkFails_tryDelete]]
          exact hft)
      · have hft2 : fs.unlinkFails t = false := by
          cases hb : fs.unlinkFails t with
          | true => exact absurd hb hft
          | false => rfl
        have h1 : fsExistsSync (tryDelete fs t) t = false :=
          fsExistsSync_tryDelete_self hft2
        have h2 : fsExistsSync (cleanupTemp t s fs) t = false := by
          cases hb : fsExistsSync (cleanupTemp t s fs) t with
          | true =>
            have := @fsExistsSync_tryDelete_mono (tryDelete fs t) t s hb
            rw [this] at h1
            exact absurd h1 (by simp)
          | false => rfl
        exact tryDelete_noop_absent h2
    rw [hA]
    by_cases hfs : fs.unlinkFails s = true
    · exact tryDelete_noop_fails (by
        rw [show (cleanupTemp t s fs).unlinkFails = fs.unlinkFails by
          unfold cleanupTemp
          rw [unlinkFails_tryDelete, unlinkFails_tryDelete]]
        exact hfs)
    · have hfs2 : fs.unlinkFails s = false := by
        cases hb : fs.unlinkFails s with
        | true => exact absurd hb hfs
        | false => rfl
      have h1 : (tryDelete fs t).unlinkFails s = false := by
        rw [unlinkFails_tryDelete]
        exact hfs2
      exact tryDelete_noop_absent (fsExistsSync_tryDelete_self h1)
  · intro hext hexs
    unfold cleanupTemp
    rw [tryDelete_noop_absent hext, tryDelete_noop_absent hexs]
  · intro hft hfs
    constructor
    · have h1 : fsExistsSync (tryDelete fs t) t = false :=
        fsExistsSync_tryDelete_self hft
      cases hb : fsExistsSync (cleanupTemp t s fs) t with
      | true =>
        have := @fsExistsSync_tryDelete_mono (tryDelete fs t) t s hb
        rw [this] at h1
        exact absurd h1 (by simp)
      | false => rfl
    · exact fsExistsSync_tryDelete_self (by rw [unlinkFails_tryDelete]; exact hfs)

theorem cleanup_idempotent_witness :
    cleanupTemp "/p/tsconfig.tsc-runner.7.json" "/p/tsconfig.tsc-runner.shims.d.ts"
      (cleanupTemp "/p/tsconfig.tsc-runner.7.json" "/p/tsconfig.tsc-runner.shims.d.ts"
        ⟨["/p/tsconfig.tsc-runner.7.json", "/p/tsconfig.tsc-runner.shims.d.ts"],
          fun _ => false⟩) =
      cleanupTemp "/p/tsconfig.tsc-runner.7.json" "/p/tsconfig.tsc-runner.shims.d.ts"
        ⟨["/p/tsconfig.tsc-runner.7.json", "/p/tsconfig.tsc-runner.shims.d.ts"],
          fun _ => false⟩ ∧
    ((fun _ => false : String → Bool) "/p/tsconfig.tsc-runner.7.json" = false →
      (fun _ => false : String → Bool) "/p/tsconfig.tsc-runner.shims.d.ts" = false →
      fsExistsSync (cleanupTemp "/p/tsconfig.tsc-runner.7.json"
        "/p/tsconfig.tsc-runner.shims.d.ts"
        ⟨["/p/tsconfig.tsc-runner.7.json", "/p/tsconfig.tsc-runner.shims.d.ts"],
          fun _ => false⟩) "/p/tsconfig.tsc-runner.7.json" = false ∧
      fsExistsSync (cleanupTemp "/p/tsconfig.tsc-runner.7.json"
        "/p/tsconfig.tsc-runner.shims.d.ts"
        ⟨["/p/tsconfig.tsc-runner.7.json", "/p/tsconfig.tsc-runner.shims.d.ts"],
          fun _ => false⟩) "/p/tsconfig.tsc-runner.shims.d.ts" = false) :=
  ⟨(cleanup_idempotent_spec "/p/tsconfig.tsc-runner.7.json"
      "/p/tsconfig.tsc-runner.shims.d.ts"
      ⟨["/p/tsconfig.tsc-runner.7.json", "/p/tsconfig.tsc-runner.shims.d.ts"],
        fun _ => false⟩).1,
    fun h1 h2 =>
      (cleanup_idempotent_spec "/p/tsconfig.tsc-runner.7.json"
        "/p/tsconfig.tsc-runner.shims.d.ts"
        ⟨["/p/tsconfig.tsc-runner.7.json", "/p/tsconfig.tsc-runner.shims.d.ts"],
          fun _ => false⟩).2.2 h1 h2⟩

theorem createTempConfig_no_files_witness :
    ((none : Option (List String)) = none ∨ (none : Option (List String)) = some []) ∧
    ((∀ k, k ≠ "compilerOptions" →
      getKey (createTempConfig [("include", .arr [.str "src"])] none
        "/proj" "/proj/s.d.ts" "/proj") k = getKey [("include", .arr [.str "src"])] k) ∧
    getKey (createTempConfig [("include", .arr [.str "src"])] none
      "/proj" "/proj/s.d.ts" "/proj") "include" =
      getKey [("include", .arr [.str "src"])] "include" ∧
    getKey (createTempConfig [("include", .arr [.str "src"])] none
      "/proj" "/proj/s.d.ts" "/proj") "exclude" =
      getKey [("include", .arr [.str "src"])] "exclude" ∧
    getKey (createTempConfig [("include", .arr [.str "src"])] none
      "/proj" "/proj/s.d.ts" "/proj") "files" =
      getKey [("include", .arr [.str "src"])] "files" ∧
    (∃ co, getKey (createTempConfig [("include", .arr [.str "src"])] none
        "/proj" "/proj/s.d.ts" "/proj") "compilerOptions" = some (.obj co) ∧
      getKey co "noEmit" = some (.bool true) ∧
      getKey co "composite" = some (.bool false) ∧
      getKey co "incremental" = some (.bool false) ∧
      getKey (serializeTop co) "outDir" = none ∧
      getKey (serializeTop co) "rootDir" = none ∧
      getKey (serializeTop co) "tsBuildInfoFile" = none ∧
      (∀ k, k ≠ "noEmit" → k ≠ "outDir" → k ≠ "rootDir" → k ≠ "composite" →
        k ≠ "incremental" → k ≠ "tsBuildInfoFile" →
        getKey co k = getKey (compilerOptionsOf [("include", .arr [.str "src"])]) k))) :=
  ⟨Or.inl rfl,
    createTempConfig_no_files_spec [("include", .arr [.str "src"])] none
      "/proj" "/proj/s.d.ts" "/proj" (Or.inl rfl)⟩

/-- C2 counterexample: on a `.gjs` file argument with an empty dependency
set and no override, the claim's precedence (which names only `.gts` at the
template step) yields `tsc`, but `pickTool` also tests `.gjs` there and
returns `glint`. -/
theorem pickTool_gjs_counterexample :
    pickTool ["a.gjs"] (.ok ⟨[], []⟩) none = .glint ∧
    pickToolClaimed ["a.gjs"] (truthyDeps (.ok ⟨[], []⟩)) none = .tsc := by
  constructor <;> rfl

/-- C2 (amended): `pickTool` follows the strict precedence: an explicit
override always wins; otherwise a `.vue` file argument selects `vue-tsc`;
otherwise a `.gts` or `.gjs` (template) file argument selects `glint`;
otherwise an `@glint/core` dependency selects `glint`; otherwise a
`vue-tsc` or `vue` dependency selects `vue-tsc`; otherwise `tsc` — stated
as equality with the precedence function over the truthy dependency set. -/
theorem pickTool_precedence_spec (fileArgs : List String)
    (pkgRead : Except Unit PackageJson) (override : Option Tool) :
    pickTool fileArgs pkgRead override =
      pickToolPatched fileArgs (truthyDeps pkgRead) override := by
  unfold pickTool pickToolPatched
  cases override with
  | some t => rfl
  | none =>
    by_cases hv : fileArgs.any (fun f => strEndsWith f ".vue") = true
    · simp only [hv, if_true]
    · simp only [Bool.not_eq_true] at hv
      simp only [hv, Bool.false_eq_true, if_false]
      by_cases hg : fileArgs.any
          (fun f => strEndsWith f ".gts" || strEndsWith f ".gjs") = true
      · simp only [hg, if_true]
      · simp only [Bool.not_eq_true] at hg
        simp only [hg, Bool.false_eq_true, if_false]
        cases pkgRead with
        | error u => rfl
        | ok pkg =>
          rw [truthyDeps_contains, truthyDeps_contains, truthyDeps_contains]

/-- C3 counterexample: an error thrown after the derived configuration was
created but before/during spawning reaches the top-level `main().catch`
handler, which calls `process.exit(1)` directly — the cleanup capability is
NOT invoked on that fatal path, contradicting the claim that every such
path runs cleanup. -/
theorem uncaught_error_skips_cleanup :
    (dispatchEvent true .uncaughtError).cleanupRan = false ∧
    (dispatchEvent true .uncaughtError).exitCode = 1 := by
  constructor <;> rfl

/-- C3 (amended): on the fatal paths wired through the single `exit` helper
— spawn error, child exit, SIGINT and SIGTERM — the cleanup capability is
invoked before the process exits whenever it was installed; an error thrown
before or during spawning instead reaches the top-level catch handler,
which exits without running cleanup. -/
theorem fatal_paths_run_cleanup (c : Option Int) (enoent : Bool) :
    dispatchEvent true (.childExit c) = exitHelper true (some (c.getD 1)) ∧
    dispatchEvent true .sigint = exitHelper true (some 130) ∧
    dispatchEvent true .sigterm = exitHelper true (some 143) ∧
    dispatchEvent true (.spawnError enoent) = exitHelper true (some 1) ∧
    (dispatchEvent true (.childExit c)).cleanupRan = true ∧
    (dispatchEvent true .sigint).cleanupRan = true ∧
    (dispatchEvent true .sigterm).cleanupRan = true ∧
    (dispatchEvent true (.spawnError enoent)).cleanupRan = true ∧
    (dispatchEvent true .uncaughtError).cleanupRan = false := by
  refine ⟨rfl, rfl, rfl, rfl, rfl, rfl, rfl, rfl, rfl⟩

/-- C6: the process exit status is the child's exit code when it has one, 1
when it is unavailable, 130 on SIGINT, 143 on SIGTERM, and 1 on every
internal fatal error (missing manifest, configuration read/parse error,
invalid `--tool` value, generic spawn failure). -/
theorem exit_codes_spec (hc : Bool) (c : Int) (enoent : Bool) :
    (dispatchEvent hc (.childExit (some c))).exitCode = c ∧
    (dispatchEvent hc (.childExit none)).exitCode = 1 ∧
    (dispatchEvent hc .sigint).exitCode = 130 ∧
    (dispatchEvent hc .sigterm).exitCode = 143 ∧
    (dispatchEvent hc (.spawnError enoent)).exitCode = 1 ∧
    (dispatchEvent hc .noManifest).exitCode = 1 ∧
    (dispatchEvent hc .configReadError).exitCode = 1 ∧
    (dispatchEvent hc .invalidTool).exitCode = 1 ∧
    (∀ v : Option String, v ≠ some "tsc" → v ≠ some "vue-tsc" → v ≠ some "glint" →
      validateToolValue v = .error 1) ∧
    (∀ (cwd cfg : String) (t : Nat) (w : Bool) (files : Option (List String)),
      buildTempTsconfig ⟨cwd, some cfg, .error (), t, w⟩ files = .error .readError) := by
  refine ⟨rfl, rfl, rfl, rfl, rfl, rfl, rfl, rfl, ?_, fun _ _ _ _ _ => rfl⟩
  intro v h1 h2 h3
  unfold validateToolValue
  rw [if_neg h1, if_neg h2, if_neg h3]

theorem exit_codes_witness :
    (dispatchEvent true (.childExit (some 2))).exitCode = 2 ∧
    validateToolValue (some "bogus") = .error 1 ∧
    buildTempTsconfig ⟨"/p", some "/p/tsconfig.json", .error (), 7, false⟩ none =
      .error .readError :=
  ⟨(exit_codes_spec true 2 false).1,
    (exit_codes_spec true 2 false).2.2.2.2.2.2.2.2.1 (some "bogus")
      (by decide) (by decide) (by decide),
    (exit_codes_spec true 2 false).2.2.2.2.2.2.2.2.2 "/p" "/p/tsconfig.json" 7 false none⟩

/-- C7: binary resolution is a total function (it never throws) following
the probe order: (1) the tool-named executable in the working directory's
`node_modules/.bin` when it exists; (2) otherwise the owning package's
declared `bin` entry — a string entry used directly, a mapping preferring
the exact command name and falling back to the first declared entry — with
script-looking paths (by extension) invoked through the runtime executable
as an argument prefix; (3) otherwise the bare command name (whose absence
only surfaces later, at spawn time). -/
theorem preferLocalBin_probe_order (env : BinEnv) (cmd : Tool) :
    (env.fsExists (localBinPath env cmd) = true →
      preferLocalBin env cmd = ⟨localBinPath env cmd, []⟩) ∧
    (∀ b, env.fsExists (localBinPath env cmd) = false →
      resolvePackageBin env (toolConfig cmd).1 (some (toolConfig cmd).2) = some b →
      preferLocalBin env cmd =
        (if isScriptPath b then ⟨env.execPath, [b]⟩ else ⟨b, []⟩)) ∧
    (env.fsExists (localBinPath env cmd) = false →
      resolvePackageBin env (toolConfig cmd).1 (some (toolConfig cmd).2) = none →
      preferLocalBin env cmd = ⟨toolName cmd, []⟩) ∧
    (∀ pkgName binName, env.resolveSilent pkgName = none →
      resolvePackageBin env pkgName binName = none) ∧
    (∀ pkgName binName pj b, env.resolveSilent pkgName = some pj →
      env.pkgBin pj = .ok (some (.single b)) → b ≠ "" →
      resolvePackageBin env pkgName binName = some (resolvePath (dirname pj) b)) ∧
    (∀ pkgName bn pj entries b, env.resolveSilent pkgName = some pj →
      env.pkgBin pj = .ok (some (.map entries)) →
      (entries.find? (fun e => e.1 = bn)).map (fun e => e.2) = some b → b ≠ "" →
      resolvePackageBin env pkgName (some bn) = some (resolvePath (dirname pj) b)) ∧
    (∀ pkgName bn pj entries e, env.resolveSilent pkgName = some pj →
      env.pkgBin pj = .ok (some (.map entries)) →
      entries.find? (fun x => x.1 = bn) = none →
      entries.head? = some e → e.2 ≠ "" →
      resolvePackageBin env pkgName (some bn) = some (resolvePath (dirname pj) e.2)) := by
  refine ⟨?_, ?_, ?_, ?_, ?_, ?_, ?_⟩
  · intro h
    unfold preferLocalBin
    rw [h]
    rfl
  · intro b h hr
    unfold preferLocalBin
    rw [h, hr]
    rfl
  · intro h hr
    unfold preferLocalBin
    rw [h, hr]
    rfl
  · intro pkgName binName h
    simp [resolvePackageBin, h]
  · intro pkgName binName pj b h hb hne
    simp [resolvePackageBin, h, hb, hne]
  · intro pkgName bn pj entries b h hb hfind hne
    cases hf : entries.find? (fun e => e.1 = bn) with
    | none => rw [hf] at hfind; simp at hfind
    | some e =>
      rw [hf] at hfind
      simp at hfind
      simp [resolvePackageBin, h, hb, hf, hfind, hne]
  · intro pkgName bn pj entries e h hb hfind hhead hne
    simp [resolvePackageBin, h, hb, hfind, hhead, hne]

/-- C5: a token is a file argument iff the extension of its resolved path
is in the fixed allow-list `FILE_EXTS` and the resolved path exists at
classification time; in particular a token ending in `.js` is never a file
argument regardless of existence, and any token whose resolved path does
not exist (e.g. a missing `.ts` path) is not a file argument. -/
theorem isFileArg_spec (ex : String → Bool) (cwd arg : String) :
    (isFileArg ex cwd arg = true ↔
      extname (resolvePath cwd arg) ∈ FILE_EXTS ∧
      ex (resolvePath cwd arg) = true) ∧
    (strEndsWith arg ".js" = true → isFileArg ex cwd arg = false) ∧
    (ex (resolvePath cwd arg) = false → isFileArg ex cwd arg = false) := by
  refine ⟨?_, isFileArg_js_false ex cwd arg, ?_⟩
  · show (FILE_EXTS.contains (extname (resolvePath cwd arg)) &&
      ex (resolvePath cwd arg)) = true ↔ _
    rw [Bool.and_eq_true]
    exact and_congr_left (fun _ => by
      rw [show FILE_EXTS.contains (extname (resolvePath cwd arg)) =
        FILE_EXTS.elem (extname (resolvePath cwd arg)) from rfl, List.elem_iff])
  · intro h0
    show (FILE_EXTS.contains (extname (resolvePath cwd arg)) &&
      ex (resolvePath cwd arg)) = false
    rw [h0, Bool.and_false]

theorem isFileArg_spec_witness :
    ((isFileArg (fun _ => true) "/p" "a.js" = true ↔
      extname (resolvePath "/p" "a.js") ∈ FILE_EXTS ∧
      (fun _ => true : String → Bool) (resolvePath "/p" "a.js") = true) ∧
    (strEndsWith "a.js" ".js" = true →
      isFileArg (fun _ => true) "/p" "a.js" = false) ∧
    ((fun _ => true : String → Bool) (resolvePath "/p" "a.js") = false →
      isFileArg (fun _ => true) "/p" "a.js" = false)) ∧
    strEndsWith "a.js" ".js" = true ∧
    isFileArg (fun _ => true) "/p" "a.js" = false ∧
    isFileArg (fun _ => false) "/p" "a.ts" = false :=
  ⟨isFileArg_spec (fun _ => true) "/p" "a.js", by decide,
    (isFileArg_spec (fun _ => true) "/p" "a.js").2.1 (by decide),
    (isFileArg_spec (fun _ => false) "/p" "a.ts").2.2 (by decide)⟩

/-- C9: every path in `parseArgs(argv).fileArgs` has a (resolved) extension
in the allow-list; consequently no member ends in `.gjs`, so the `.gjs`
test inside `pickTool` is never satisfied on `parseArgs`-produced file
arguments — on such inputs `pickTool` coincides with the precedence that
has no `.gjs` template test at all (so a `.gjs` token can never drive
extension-based selection of glint; it stays in `passthrough`). -/
theorem parseArgs_fileArgs_exts (ex : String → Bool) (cwd : String)
    (argv : List String) (r : ParsedArgs)
    (h : parseArgs ex cwd argv = .ok r) :
    (∀ f ∈ r.fileArgs, extname (resolvePath cwd f) ∈ FILE_EXTS) ∧
    (∀ f ∈ r.fileArgs, strEndsWith f ".gjs" = false) ∧
    ((r.fileArgs.any fun f => strEndsWith f ".gjs") = false) ∧
    (∀ (pkgRead : Except Unit PackageJson) (override : Option Tool),
      pickTool r.fileArgs pkgRead override =
        pickToolClaimed r.fileArgs (truthyDeps pkgRead) override) := by
  have hfa := parseArgs_ok_fileArgs h
  have hmem : ∀ f ∈ r.fileArgs, isFileArg ex cwd f = true := by
    intro f hf
    rw [hfa] at hf
    exact (List.mem_filter.mp hf).2
  have hgjs : ∀ f ∈ r.fileArgs, strEndsWith f ".gjs" = false := by
    intro f hf
    cases hends : strEndsWith f ".gjs" with
    | false => rfl
    | true =>
      have := isFileArg_gjs_false ex cwd f hends
      rw [hmem f hf] at this
      cases this
  refine ⟨?_, hgjs, ?_, ?_⟩
  · intro f hf
    have h1 := hmem f hf
    have h2 : (FILE_EXTS.contains (extname (resolvePath cwd f)) &&
        ex (resolvePath cwd f)) = true := h1
    rw [Bool.and_eq_true] at h2
    rw [show FILE_EXTS.contains (extname (resolvePath cwd f)) =
      FILE_EXTS.elem (extname (resolvePath cwd f)) from rfl,
      List.elem_iff] at h2
    exact h2.1
  · rw [List.any_eq_false]
    intro f hf
    rw [hgjs f hf]
    simp
  · intro pkgRead override
    rw [pickTool_precedence_spec, pickToolPatched_eq_claimed_of_no_gjs hgjs]

theorem parseArgs_fileArgs_exts_witness :
    parseArgs (fun _ => true) "/p" ["a.ts", "b.gjs"] =
      .ok ⟨["a.ts"], ["b.gjs"], none, none⟩ ∧
    ((∀ f ∈ (["a.ts"] : List String), extname (resolvePath "/p" f) ∈ FILE_EXTS) ∧
    (∀ f ∈ (["a.ts"] : List String), strEndsWith f ".gjs" = false) ∧
    ((["a.ts"].any fun f => strEndsWith f ".gjs") = false) ∧
    (∀ (pkgRead : Except Unit PackageJson) (override : Option Tool),
      pickTool ["a.ts"] pkgRead override =
        pickToolClaimed ["a.ts"] (truthyDeps pkgRead) override)) :=
  ⟨by rfl,
    parseArgs_fileArgs_exts (fun _ => true) "/p" ["a.ts", "b.gjs"]
      ⟨["a.ts"], ["b.gjs"], none, none⟩ (by rfl)⟩

theorem preferLocalBin_probe_order_witness :
    preferLocalBin ⟨"/p", false, "/usr/bin/node", fun _ => true,
      fun _ => none, fun _ => .error ()⟩ .tsc =
      ⟨localBinPath ⟨"/p", false, "/usr/bin/node", fun _ => true,
        fun _ => none, fun _ => .error ()⟩ .tsc, []⟩ ∧
    preferLocalBin ⟨"/p", false, "/usr/bin/node", fun _ => false,
      fun _ => none, fun _ => .error ()⟩ .glint = ⟨toolName .glint, []⟩ :=
  ⟨(preferLocalBin_probe_order ⟨"/p", false, "/usr/bin/node", fun _ => true,
      fun _ => none, fun _ => .error ()⟩ .tsc).1 rfl,
    (preferLocalBin_probe_order ⟨"/p", false, "/usr/bin/node", fun _ => false,
      fun _ => none, fun _ => .error ()⟩ .glint).2.2.1 rfl
      ((preferLocalBin_probe_order ⟨"/p", false, "/usr/bin/node", fun _ => false,
        fun _ => none, fun _ => .error ()⟩ .glint).2.2.2.1 _ _ rfl)⟩

/-- C10: the shim file's path is the fixed, non-timestamp-qualified name
`tsconfig.tsc-runner.shims.d.ts` in the configuration directory — the same
across invocations, while derived configuration paths with distinct
timestamps are distinct — and a shim write failure is swallowed:
`buildTempTsconfig` still succeeds and the derived configuration still
lists the shim's relative path in `files`. -/
theorem buildTempTsconfig_shim_spec (cwd cfg : String)
    (cr : Option (List (String × JValue))) (t1 t2 : Nat) (w1 w2 : Bool)
    (files1 files2 : Option (List String)) (fsl : List String)
    (hne : fsl ≠ []) (hts : t1 ≠ t2) :
    ∃ out1 out2 outF,
      buildTempTsconfig ⟨cwd, some cfg, .ok cr, t1, w1⟩ files1 = .ok out1 ∧
      buildTempTsconfig ⟨cwd, some cfg, .ok cr, t2, w2⟩ files2 = .ok out2 ∧
      out1.shimPath = out2.shimPath ∧
      out1.shimPath =
        ⟨(dirname cfg).data ++ "/tsconfig.tsc-runner.shims.d.ts".data⟩ ∧
      out1.tempPath ≠ out2.tempPath ∧
      buildTempTsconfig ⟨cwd, some cfg, .ok cr, t1, true⟩ (some fsl) = .ok outF ∧
      outF.shimWritten = false ∧
      getKey outF.tempConfig "files" =
        some (.arr ((fsl.map (fun f =>
          relativePath cwd (dirname cfg) (resolvePath cwd f)) ++
          [relativePath cwd (dirname cfg) outF.shimPath]).map .str)) := by
  refine ⟨_, _, _, rfl, rfl, rfl, rfl, ?_, rfl, rfl, ?_⟩
  · intro heq
    have hdata := congrArg String.data heq
    simp only at hdata
    have h1 := (List.append_left_inj _).mp hdata
    have h2 := (List.append_right_inj _).mp h1
    exact hts (toDecimalChars_inj t1 t2 h2)
  · exact getKey_files_createTempConfig _ fsl (dirname cfg) _ cwd hne

theorem buildTempTsconfig_shim_witness :
    ∃ out1 out2 outF,
      buildTempTsconfig ⟨"/p", some "/p/tsconfig.json", .ok none, 10, false⟩
        none = .ok out1 ∧
      buildTempTsconfig ⟨"/p", some "/p/tsconfig.json", .ok none, 11, true⟩
        (some ["a.ts"]) = .ok out2 ∧
      out1.shimPath = out2.shimPath ∧
      out1.shimPath =
        ⟨(dirname "/p/tsconfig.json").data ++
          "/tsconfig.tsc-runner.shims.d.ts".data⟩ ∧
      out1.tempPath ≠ out2.tempPath ∧
      buildTempTsconfig ⟨"/p", some "/p/tsconfig.json", .ok none, 10, true⟩
        (some ["a.ts"]) = .ok outF ∧
      outF.shimWritten = false ∧
      getKey outF.tempConfig "files" =
        some (.arr ((["a.ts"].map (fun f =>
          relativePath "/p" (dirname "/p/tsconfig.json") (resolvePath "/p" f)) ++
          [relativePath "/p" (dirname "/p/tsconfig.json") outF.shimPath]).map .str)) :=
  buildTempTsconfig_shim_spec "/p" "/p/tsconfig.json" none 10 11 false true
    none (some ["a.ts"]) ["a.ts"] (by decide) (by decide)

end TscRunner
